import Mathlib

/-!
Verification of the Vigenère-cracker program (src/project.py) against its
natural-language specification.  Texts are modelled as `List Char` (one entry
per Unicode code point, as in a Python `str`), machine integers as `Nat`/`Int`
with explicit `% 26` where the program wraps, and fallible code (a Python
function that can raise) as `Option`.
-/

/-- English letter frequencies (from highest to lowest), `ENGLISH_FREQ` in the
source. -/
def ENGLISH_FREQ : List Char :=
  ['e', 't', 'a', 'o', 'i', 'n', 's', 'h', 'r', 'd', 'l', 'c', 'u', 'm',
   'w', 'f', 'g', 'y', 'p', 'b', 'v', 'k', 'j', 'x', 'q', 'z']

/-- Code point of Python `c.lower()`, for the code points on which this
development evaluates it: exact on ASCII (`A`-`Z` maps to `a`-`z`) and on
U+212A KELVIN SIGN (whose Unicode simple lowercase mapping is the ASCII
letter `k`, code 107).  Every other code point is left unchanged; this is
exact for all code points whose Python `lower()` lands in ASCII `a`-`z`
(U+212A is the only non-ASCII such code point in Unicode) and therefore
makes `lowerInAscii` below agree with CPython everywhere. -/
def pyLowerOrd (c : Char) : Nat :=
  if 65 ≤ c.toNat ∧ c.toNat ≤ 90 then c.toNat + 32
  else if c.toNat = 0x212A then 107
  else c.toNat

/-- The source's alphabetic test `c.lower() in string.ascii_lowercase`:
true exactly on `a`-`z`, `A`-`Z` and U+212A KELVIN SIGN. -/
def lowerInAscii (c : Char) : Bool :=
  decide (97 ≤ pyLowerOrd c ∧ pyLowerOrd c ≤ 122)

/-- Python `c.isupper()`, restricted to the characters that can reach the
branch guarded by `lowerInAscii` (ASCII letters and U+212A): true on `A`-`Z`
and on U+212A (category Lu), false on `a`-`z`. -/
def pyIsUpper (c : Char) : Bool :=
  decide ((65 ≤ c.toNat ∧ c.toNat ≤ 90) ∨ c.toNat = 0x212A)

/-- Python `c.lower()` as a character, used on the key (`key = key.lower()`);
see `pyLowerOrd` for the modelled domain. -/
def pyLowerChar (c : Char) : Char := Char.ofNat (pyLowerOrd c)

/-- One decrypted character: the body of the alphabetic branch of
`decrypt_vigenere`, `chr(((ord(c.lower()) - ord('a') - shift) % 26) + ord('a'))`
with `.upper()` applied when `c.isupper()`. -/
def decryptChar (c : Char) (shift : Int) : Char :=
  if pyIsUpper c then
    Char.ofNat ((((pyLowerOrd c : Int) - 97 - shift) % 26 + 97).toNat - 32)
  else
    Char.ofNat ((((c.toNat : Int) - 97 - shift) % 26 + 97).toNat)

/-- The character-by-character loop of `decrypt_vigenere`.  `key` is the
already lowercased key, `ki` the number of key characters consumed so far;
`next(key_cycle)` is `key[ki % len(key)]`, raising `StopIteration` (`none`)
on an empty key.  Non-alphabetic characters are appended unchanged without
consuming a key position. -/
def goDecrypt (key : List Char) : List Char → Nat → Option (List Char)
  | [], _ => some []
  | c :: rest, ki =>
    if lowerInAscii c then
      match key with
      | [] => none
      | k0 :: ks =>
        let kc := (k0 :: ks).get ⟨ki % (ks.length + 1), Nat.mod_lt _ (Nat.succ_pos _)⟩
        let d := decryptChar c ((kc.toNat : Int) - 97)
        (goDecrypt key rest (ki + 1)).map (fun l => d :: l)
    else
      (goDecrypt key rest ki).map (fun l => c :: l)

/-- `decrypt_vigenere` from the source: lowercase the key, then run the
cyclic-key loop from cursor 0.  `none` models the `StopIteration` a
zero-length key raises at the first alphabetic character. -/
def decrypt_vigenere (ciphertext : List Char) (key : List Char) : Option (List Char) :=
  goDecrypt (key.map pyLowerChar) ciphertext 0

/-- One encrypted character, `chr(((ord(c.lower()) - ord('a') + shift) % 26) + ord('a'))`
with case restored, mirroring `decryptChar` with the opposite sign. -/
def encryptChar (c : Char) (shift : Int) : Char :=
  if pyIsUpper c then
    Char.ofNat ((((pyLowerOrd c : Int) - 97 + shift) % 26 + 97).toNat - 32)
  else
    Char.ofNat ((((c.toNat : Int) - 97 + shift) % 26 + 97).toNat)

/-- Modelled from the spec: the Encrypt direction of the §4.5 VigenereCodec
transform, which the repository does not implement (only the Decrypt
direction, `decrypt_vigenere`, is in the source).  Same structure as
`goDecrypt`: cyclic key cursor advancing only on alphabetic characters, shift
added instead of subtracted, case preserved, non-alphabetic characters passed
through. -/
def goEncrypt (key : List Char) : List Char → Nat → Option (List Char)
  | [], _ => some []
  | c :: rest, ki =>
    if lowerInAscii c then
      match key with
      | [] => none
      | k0 :: ks =>
        let kc := (k0 :: ks).get ⟨ki % (ks.length + 1), Nat.mod_lt _ (Nat.succ_pos _)⟩
        let d := encryptChar c ((kc.toNat : Int) - 97)
        (goEncrypt key rest (ki + 1)).map (fun l => d :: l)
    else
      (goEncrypt key rest ki).map (fun l => c :: l)

/-- Modelled from the spec: `apply(text, key, Encrypt)` of §4.5, with
`(char_index + shift) mod 26`; the key is case-normalized to lowercase
before use, exactly as in `decrypt_vigenere`. -/
def encrypt_vigenere (text : List Char) (key : List Char) : Option (List Char) :=
  goEncrypt (key.map pyLowerChar) text 0

/-- `[a-zA-Z]`, the character class kept by `clean_text`'s regex. -/
def isAsciiLetter (c : Char) : Bool :=
  decide ((65 ≤ c.toNat ∧ c.toNat ≤ 90) ∨ (97 ≤ c.toNat ∧ c.toNat ≤ 122))

/-- ASCII lowercasing, `str.lower` on the all-ASCII-letter output of the
regex substitution. -/
def asciiLowerChar (c : Char) : Char :=
  if 65 ≤ c.toNat ∧ c.toNat ≤ 90 then Char.ofNat (c.toNat + 32) else c

/-- `clean_text` from the source: drop every character that is not an ASCII
letter, then lowercase. -/
def clean_text (ciphertext : List Char) : List Char :=
  (ciphertext.filter isAsciiLetter).map asciiLowerChar


/-- Walk a list keeping the element whenever the countdown hits 0 and
resetting it to `step - 1`: started at countdown `0` this yields the elements
at positions `0, step, 2*step, ...`, i.e. Python's extended slice `s[::step]`
for `step ≥ 1`. -/
def sliceAux (step : Nat) : List Char → Nat → List Char
  | [], _ => []
  | c :: rest, 0 => c :: sliceAux step rest (step - 1)
  | _ :: rest, k + 1 => sliceAux step rest k

/-- Python's slice `s[start::step]`: `none` models the `ValueError` raised
when `step = 0` is evaluated. -/
def pySliceEvery (s : List Char) (start step : Nat) : Option (List Char) :=
  if step = 0 then none else some (sliceAux step (s.drop start) 0)

/-- `get_cosets` from the source,
`[ciphertext[i::key_length] for i in range(key_length)]`.  For
`key_length = 0` the comprehension performs no iterations, so the invalid
slice is never evaluated and the result is `some []`. -/
def get_cosets (ciphertext : List Char) (key_length : Nat) : Option (List (List Char)) :=
  (List.range key_length).mapM (fun i => pySliceEvery ciphertext i key_length)

/-- The letter `chr(((ord(c) - ord('a') - shift) % 26) + ord('a'))` that `c`
would decrypt to under Caesar shift `shift`, from `frequency_analysis`. -/
def expectedChar (c : Char) (shift : Nat) : Char :=
  Char.ofNat ((((c.toNat : Int) - 97 - shift) % 26 + 97).toNat)

/-- The score `frequency_analysis` assigns to one candidate shift: the sum
over the distinct letters `c` of the coset (the iteration `for c in counts`
over the `Counter`) of `counts[c] * (26 - ENGLISH_FREQ.index(expected))`,
with 0 when the expected letter is not in the table. -/
def scoreShift (coset : List Char) (shift : Nat) : Nat :=
  coset.dedup.foldl
    (fun acc c =>
      acc +
        if expectedChar c shift ∈ ENGLISH_FREQ then
          coset.count c * (26 - ENGLISH_FREQ.indexOf (expectedChar c shift))
        else 0)
    0

/-- The body of the `for shift in range(26)` loop of `frequency_analysis`:
keep `(best_shift, best_score)`, overwriting only on a strictly larger
score. -/
def faStep (coset : List Char) (best : Nat × Int) (shift : Nat) : Nat × Int :=
  if (scoreShift coset shift : Int) > best.2 then (shift, (scoreShift coset shift : Int))
  else best

/-- `frequency_analysis` from the source: scan shifts `0..25` starting from
`best_shift = 0`, `best_score = -1`, and return the best shift. -/
def frequency_analysis (coset : List Char) : Nat :=
  ((List.range 26).foldl (faStep coset) (0, -1)).1

/-- The window `ciphertext[i:i+3]` scanned by `kasiski_examination`. -/
def win3 (C : List Char) (i : Nat) : List Char := (C.drop i).take 3

/-- One step of building the `sequences` dict: append position `i` to the
entry of the 3-letter window `s`, creating the entry at the end (Python
dicts preserve insertion order) when `s` is new. -/
def updateAssoc (m : List (List Char × List Nat)) (s : List Char) (i : Nat) :
    List (List Char × List Nat) :=
  match m with
  | [] => [(s, [i])]
  | kv :: rest => if kv.1 = s then (kv.1, kv.2 ++ [i]) :: rest else kv :: updateAssoc rest s i

/-- The `sequences` dict of `kasiski_examination`: every 3-letter window of
the text mapped to the ordered list of its start offsets. -/
def buildSequences (C : List Char) : List (List Char × List Nat) :=
  (List.range (C.length - 2)).foldl (fun m i => updateAssoc m (win3 C i) i) []

/-- `repeated_seqs`: the entries of `sequences` with at least two
occurrences. -/
def repeatedSeqs (C : List Char) : List (List Char × List Nat) :=
  (buildSequences C).filter (fun kv => decide (1 < kv.2.length))

/-- All pairwise forward distances `positions[j] - positions[i]` for `i < j`,
in the source's double-loop order. -/
def pairDistances : List Nat → List Nat
  | [] => []
  | p :: rest => rest.map (fun q => q - p) ++ pairDistances rest

/-- The `distances` list of `kasiski_examination`: pairwise distances of each
repeated sequence's occurrence list, in dict order. -/
def distancesOf (C : List Char) : List Nat :=
  (repeatedSeqs C).flatMap (fun kv => pairDistances kv.2)

/-- CPython's hash of a nonnegative `int`: reduction modulo `2^61 - 1`
(`PyHASH_MODULUS`); on small values it is the identity. -/
def pyHash (n : Nat) : Nat := n % (2 ^ 61 - 1)

/-- The slots examined from probe base `i` in a table of `size` slots
(`mask = size - 1`): CPython's `set_add_entry` and `set_insert_clean` check
slot `i` and, when the run fits below the table end
(`i + LINEAR_PROBES <= mask`, `LINEAR_PROBES = 9`), the nine slots after
it. -/
def probeWindow (size i : Nat) : List Nat :=
  if i + 9 ≤ size - 1 then (List.range 10).map (i + ·) else [i]

/-- Scan one probe window for `set_add_entry`: the first slot that is unused
or already holds `key`; `none` when every slot of the window holds some
other key. -/
def scanAdd (table : List (Option Nat)) (key : Nat) : List Nat → Option Nat
  | [] => none
  | j :: rest =>
    match table.getD j none with
    | none => some j
    | some k => if k = key then some j else scanAdd table key rest

/-- Scan one probe window for `set_insert_clean`: the first unused slot. -/
def scanClean (table : List (Option Nat)) : List Nat → Option Nat
  | [] => none
  | j :: rest =>
    match table.getD j none with
    | none => some j
    | some _ => scanClean table rest

/-- The probe loop of `set_add_entry`: scan the window at base `i`, else
shift the perturbation (`perturb >>= 5`) and jump to
`(i*5 + 1 + perturb) & mask` — the table size is a power of two, so `& mask`
is `% size`.  `fuel` bounds the number of jumps; it is chosen large enough
that the loop, which CPython runs unboundedly, always stops inside it. -/
def probeAdd (table : List (Option Nat)) (key : Nat) : Nat → Nat → Nat → Option Nat
  | _, _, 0 => none
  | i, perturb, fuel + 1 =>
    match scanAdd table key (probeWindow table.length i) with
    | some j => some j
    | none => probeAdd table key ((i * 5 + 1 + perturb / 32) % table.length) (perturb / 32) fuel

/-- The probe loop of `set_insert_clean`, with the same jump schedule as
`probeAdd`. -/
def probeClean (table : List (Option Nat)) : Nat → Nat → Nat → Option Nat
  | _, _, 0 => none
  | i, perturb, fuel + 1 =>
    match scanClean table (probeWindow table.length i) with
    | some j => some j
    | none => probeClean table ((i * 5 + 1 + perturb / 32) % table.length) (perturb / 32) fuel

/-- `set_table_resize`'s size computation: double from `PySet_MINSIZE = 8`
while the size is at most `minused` (`minused + 1` doublings always
suffice, so the fuel never runs out). -/
def growSize (minused : Nat) : Nat → Nat → Nat
  | s, 0 => s
  | s, fuel + 1 => if s ≤ minused then growSize minused (2 * s) fuel else s

def newSize (minused : Nat) : Nat := growSize minused 8 (minused + 1)

/-- `set_insert_clean`: during a resize, place `key` (known not to be
present) at the first unused slot on its probe path.  The `none` fallback is
unreachable: the table always has an unused slot within fuel reach. -/
def setInsertClean (table : List (Option Nat)) (key : Nat) : List (Option Nat) :=
  match probeClean table (pyHash key % table.length) (pyHash key)
      (pyHash key + table.length + 1) with
  | some j => table.set j (some key)
  | none => table

/-- `set_table_resize`: move to a fresh table of the first power-of-two size
above `minused` (starting from 8) and reinsert the entries in slot order. -/
def setResize (table : List (Option Nat)) (minused : Nat) : List (Option Nat) :=
  (table.filterMap id).foldl setInsertClean (List.replicate (newSize minused) none)

/-- `set_add_entry` on the state `(table, used)` (`fill = used`: nothing is
ever discarded from these sets): probe for `key`; on a slot already holding
`key` do nothing, on an unused slot store `key` and, when the fill reaches
3/5 of the mask, resize to `used*4` (`used*2` beyond 50000 entries). -/
def setAddEntry (st : List (Option Nat) × Nat) (key : Nat) : List (Option Nat) × Nat :=
  match probeAdd st.1 key (pyHash key % st.1.length) (pyHash key)
      (pyHash key + st.1.length + 1) with
  | none => st
  | some j =>
    match st.1.getD j none with
    | some _ => st
    | none =>
      let used := st.2 + 1
      if used * 5 < (st.1.length - 1) * 3 then (st.1.set j (some key), used)
      else (setResize (st.1.set j (some key))
        (if 50000 < used then used * 2 else used * 4), used)

/-- A CPython `set(lst)`: start from the minimal table of 8 unused slots and
`set_add_entry` each element of `lst` in order. -/
def pySetTable (lst : List Nat) : List (Option Nat) :=
  (lst.foldl setAddEntry (List.replicate 8 none, 0)).1

/-- Iterating a CPython set yields its entries in table-slot order. -/
def pySetElems (lst : List Nat) : List Nat := (pySetTable lst).filterMap id

/-- `get_factors`: the source builds the Python set
`set([i for i in range(2, max_key_length+1) if n % i == 0])` and iterates
it, so the divisors come out in the set's table order — not in ascending
order: `get_factors 10 15 = [2, 10, 5]`. -/
def get_factors (n : Nat) (M : Nat) : List Nat :=
  pySetElems ((List.range' 2 (M - 1)).filter (fun f => n % f = 0))

/-- The jump bases visited by the probe loops, in order. -/
def probeBases (size : Nat) : Nat → Nat → Nat → List Nat
  | _, _, 0 => []
  | i, perturb, fuel + 1 =>
    i :: probeBases size ((i * 5 + 1 + perturb / 32) % size) (perturb / 32) fuel

/-- The probe base after `fuel` jumps. -/
def jumpIter (size : Nat) : Nat → Nat → Nat → Nat
  | i, _, 0 => i
  | i, perturb, fuel + 1 => jumpIter size ((i * 5 + 1 + perturb / 32) % size) (perturb / 32) fuel

/-- Iterates of the zero-perturbation jump `i ↦ (i*5 + 1) % size`. -/
def lcgIter (size : Nat) : Nat → Nat → Nat
  | i, 0 => i
  | i, t + 1 => lcgIter size ((i * 5 + 1) % size) t

/-- A live set table: a power-of-two size of at least `8 = 2^3` slots. -/
def GoodTable (t : List (Option Nat)) : Prop := ∃ k, 3 ≤ k ∧ t.length = 2 ^ k

/-- `common_factors[f] += 1` on a `Counter` held as an insertion-ordered
association list. -/
def bumpCounter (m : List (Nat × Nat)) (f : Nat) : List (Nat × Nat) :=
  match m with
  | [] => [(f, 1)]
  | kv :: rest => if kv.1 = f then (kv.1, kv.2 + 1) :: rest else kv :: bumpCounter rest f

/-- The `common_factors` Counter: one vote per distance a factor evenly
divides, keys in first-encountered order. -/
def factorVotes (ds : List Nat) (M : Nat) : List (Nat × Nat) :=
  ds.foldl (fun m d => (get_factors d M).foldl bumpCounter m) []

/-- Stable insert for descending counts: skip past strictly larger counts,
so an earlier-inserted element stays before later equal-count ones. -/
def insertDesc (a : Nat × Nat) : List (Nat × Nat) → List (Nat × Nat)
  | [] => [a]
  | b :: l => if b.2 > a.2 then b :: insertDesc a l else a :: b :: l

/-- Stable sort by descending count.  `Counter.most_common` is documented as
a stable sort by descending count ("elements with equal counts are ordered
in the order first encountered"); a stable insertion sort computes the same
list. -/
def sortDesc : List (Nat × Nat) → List (Nat × Nat)
  | [] => []
  | a :: l => insertDesc a (sortDesc l)

/-- `Counter.most_common(k)`. -/
def most_common (m : List (Nat × Nat)) (k : Nat) : List (Nat × Nat) :=
  (sortDesc m).take k

/-- `kasiski_examination` from the source: vote for the factors of the
pairwise repeat distances and return the keys of the top 3 entries. -/
def kasiski_examination (ciphertext : List Char) (max_key_length : Nat := 15) : List Nat :=
  (most_common (factorVotes (distancesOf ciphertext) max_key_length) 3).map Prod.fst

/-- Key assembly for one candidate key length, the loop
`key = ''.join(chr(frequency_analysis(coset) + ord('a')) for coset in cosets)`
shared by both attempt loops of `crack_vigenere`. -/
def assembleKey (cleaned : List Char) (kl : Nat) : Option (List Char) :=
  (get_cosets cleaned kl).map
    (fun cosets => cosets.map (fun cs => Char.ofNat (frequency_analysis cs + 97)))

/-- One pass of `crack_vigenere` over a list of candidate key lengths:
assemble a key, decrypt the original ciphertext, query the confirmation
oracle, and stop at the first acceptance.  Besides the result it returns the
trace of `(key, decrypted)` pairs shown to the oracle, one per query, in
query order — the observable the source produces with `print`/`input`. -/
def tryLengths (ciphertext cleaned : List Char)
    (oracle : List Char → List Char → Bool) :
    List Nat → Option (Option (List Char × List Char) × List (List Char × List Char))
  | [] => some (none, [])
  | kl :: rest => do
      let key ← assembleKey cleaned kl
      let decrypted ← decrypt_vigenere ciphertext key
      if oracle key decrypted then
        pure (some (key, decrypted), [(key, decrypted)])
      else do
        let (res, tr) ← tryLengths ciphertext cleaned oracle rest
        pure (res, (key, decrypted) :: tr)

/-- `crack_vigenere` from the source, with the human `input("y/n")`
confirmation abstracted as the boolean `oracle` of the key and the decrypted
text: try each ranked Kasiski candidate, then every manual length `5..15`
not already tried, and return `(None, None)` (here the inner `none`) if all
are rejected.  The second component is the ordered trace of oracle
queries. -/
def crack_vigenere (oracle : List Char → List Char → Bool) (ciphertext : List Char) :
    Option (Option (List Char × List Char) × List (List Char × List Char)) := do
  let cleaned := clean_text ciphertext
  let possible_lengths := kasiski_examination cleaned
  let (res1, tr1) ← tryLengths ciphertext cleaned oracle possible_lengths
  match res1 with
  | some r => pure (some r, tr1)
  | none => do
      let manual := (List.range' 5 11).filter (fun kl => decide (kl ∉ possible_lengths))
      let (res2, tr2) ← tryLengths ciphertext cleaned oracle manual
      pure (res2, tr1 ++ tr2)

/-- Sanity: the spec's §8 worked example, letter for letter, case preserved. -/
theorem sanity_worked_example :
    decrypt_vigenere
      ['L','x','f','o','p','v','e','f','r','n','h','r'] ['l','e','m','o','n'] =
    some ['A','t','t','a','c','k','a','t','d','a','w','n'] := by decide

/-- Sanity: slicing matches Python, `get_cosets("abcde", 2) = ["ace", "bd"]`. -/
theorem sanity_cosets :
    get_cosets ['a','b','c','d','e'] 2 = some [['a','c','e'], ['b','d']] := by decide

/-- Sanity: the hash-table iteration orders of the divisor sets match the
interpreter: `list(set([2, 5, 10]))` is `[2, 10, 5]` and
`list(set([3, 5, 7, 15]))` is `[3, 15, 5, 7]`. -/
theorem sanity_set_order :
    get_factors 10 15 = [2, 10, 5] ∧ get_factors 105 15 = [3, 15, 5, 7] := by
  decide

/-- The `sequences` dict after scanning the first `n` window positions;
`buildSequences C = buildSeqAux C (C.length - 2)`. -/
def buildSeqAux (C : List Char) (n : Nat) : List (List Char × List Nat) :=
  (List.range n).foldl (fun m i => updateAssoc m (win3 C i) i) []

/-- The vote count stored in the `common_factors` Counter for divisor `f`
(0 when absent), used to state what `kasiski_examination` returns. -/
def countOf : List (Nat × Nat) → Nat → Nat
  | [], _ => 0
  | kv :: rest, f => if kv.1 = f then kv.2 else countOf rest f

/-- The ordered start offsets of the 3-letter window `s` in `C`, the value
`kasiski_examination`'s `sequences` dict associates with `s`. -/
def posOf (C : List Char) (s : List Char) : List Nat :=
  (List.range (C.length - 2)).filter (fun i => decide (win3 C i = s))

/-! ### Character-level helper lemmas -/

theorem char_toNat_ofNat (n : Nat) (h : n < 55296) : (Char.ofNat n).toNat = n := by
  have hv : Nat.isValidChar n := Or.inl h
  simp [Char.ofNat, hv, Char.ofNatAux, Char.toNat, UInt32.toNat]

theorem char_eq_of_toNat {a b : Char} (h : a.toNat = b.toNat) : a = b := by
  rw [← Char.ofNat_toNat a, ← Char.ofNat_toNat b, h]

theorem lowerInAscii_iff (c : Char) :
    lowerInAscii c = true ↔
      (97 ≤ c.toNat ∧ c.toNat ≤ 122) ∨ (65 ≤ c.toNat ∧ c.toNat ≤ 90) ∨
        c.toNat = 0x212A := by
  simp only [lowerInAscii, pyLowerOrd, decide_eq_true_eq]
  split_ifs with h1 h2 <;> omega

theorem pyIsUpper_iff (c : Char) :
    pyIsUpper c = true ↔ (65 ≤ c.toNat ∧ c.toNat ≤ 90) ∨ c.toNat = 0x212A := by
  simp [pyIsUpper]

theorem pyIsUpper_eq_false (c : Char)
    (h : ¬((65 ≤ c.toNat ∧ c.toNat ≤ 90) ∨ c.toNat = 0x212A)) : pyIsUpper c = false := by
  simp only [pyIsUpper, decide_eq_false_iff_not]
  exact h

/-- Decrypting a lowercase ASCII letter yields a lowercase ASCII letter,
whatever the shift. -/
theorem decryptChar_toNat_of_lower {c : Char} (s : Int)
    (h : 97 ≤ c.toNat ∧ c.toNat ≤ 122) :
    (decryptChar c s).toNat = (((c.toNat : Int) - 97 - s) % 26 + 97).toNat := by
  have hu : pyIsUpper c = false := pyIsUpper_eq_false c (by omega)
  simp only [decryptChar, hu, Bool.false_eq_true, if_false]
  exact char_toNat_ofNat _ (by omega)

/-- Decrypting an uppercase ASCII letter yields an uppercase ASCII letter,
whatever the shift. -/
theorem decryptChar_toNat_of_upper {c : Char} (s : Int)
    (h : 65 ≤ c.toNat ∧ c.toNat ≤ 90) :
    (decryptChar c s).toNat =
      ((((c.toNat : Int) + 32) - 97 - s) % 26 + 97).toNat - 32 := by
  have hu : pyIsUpper c = true := (pyIsUpper_iff c).mpr (Or.inl h)
  have hl : pyLowerOrd c = c.toNat + 32 := by
    simp only [pyLowerOrd]
    rw [if_pos h]
  simp only [decryptChar, hu, if_true, hl]
  rw [char_toNat_ofNat _ (by omega)]
  push_cast
  ring_nf

theorem encryptChar_toNat_of_lower {c : Char} (s : Int)
    (h : 97 ≤ c.toNat ∧ c.toNat ≤ 122) :
    (encryptChar c s).toNat = (((c.toNat : Int) - 97 + s) % 26 + 97).toNat := by
  have hu : pyIsUpper c = false := pyIsUpper_eq_false c (by omega)
  simp only [encryptChar, hu, Bool.false_eq_true, if_false]
  exact char_toNat_ofNat _ (by omega)

theorem encryptChar_toNat_of_upper {c : Char} (s : Int)
    (h : 65 ≤ c.toNat ∧ c.toNat ≤ 90) :
    (encryptChar c s).toNat =
      ((((c.toNat : Int) + 32) - 97 + s) % 26 + 97).toNat - 32 := by
  have hu : pyIsUpper c = true := (pyIsUpper_iff c).mpr (Or.inl h)
  have hl : pyLowerOrd c = c.toNat + 32 := by
    simp only [pyLowerOrd]
    rw [if_pos h]
  simp only [encryptChar, hu, if_true, hl]
  rw [char_toNat_ofNat _ (by omega)]
  push_cast
  ring_nf

/-- Encrypt-then-decrypt is the identity on one alphabetic character, except
on U+212A: the encrypted character is again alphabetic and non-Kelvin, its
case matches, and decrypting it with the same shift restores `c`. -/
theorem encryptChar_roundtrip {c : Char} (s : Int) (hc : lowerInAscii c = true)
    (hk : c.toNat ≠ 0x212A) :
    lowerInAscii (encryptChar c s) = true ∧
      decryptChar (encryptChar c s) s = c := by
  rcases (lowerInAscii_iff c).mp hc with h | h | h
  · have he : (encryptChar c s).toNat = (((c.toNat : Int) - 97 + s) % 26 + 97).toNat :=
      encryptChar_toNat_of_lower s h
    have hb : 97 ≤ (encryptChar c s).toNat ∧ (encryptChar c s).toNat ≤ 122 := by omega
    refine ⟨(lowerInAscii_iff _).mpr (Or.inl hb), char_eq_of_toNat ?_⟩
    rw [decryptChar_toNat_of_lower s hb]
    omega
  · have he : (encryptChar c s).toNat =
        ((((c.toNat : Int) + 32) - 97 + s) % 26 + 97).toNat - 32 :=
      encryptChar_toNat_of_upper s h
    have hb : 65 ≤ (encryptChar c s).toNat ∧ (encryptChar c s).toNat ≤ 90 := by omega
    refine ⟨(lowerInAscii_iff _).mpr (Or.inr (Or.inl hb)), char_eq_of_toNat ?_⟩
    rw [decryptChar_toNat_of_upper s hb]
    omega
  · exact absurd h hk

/-! ### Behaviour of the decrypt loop -/

/-- With an empty key, a text with no alphabetic characters is echoed
unchanged (the `next(cycle(''))` that would raise is never reached). -/
theorem goDecrypt_nil_of_no_alpha (text : List Char) (ki : Nat)
    (h : ∀ c ∈ text, lowerInAscii c = false) :
    goDecrypt [] text ki = some text := by
  induction text generalizing ki with
  | nil => rfl
  | cons c rest ih =>
    have hc : lowerInAscii c = false := h c (List.mem_cons_self c rest)
    simp only [goDecrypt, hc, Bool.false_eq_true, if_false]
    rw [ih ki fun d hd => h d (List.mem_cons_of_mem c hd)]
    rfl

/-- With an empty key, the first alphabetic character raises
`StopIteration`. -/
theorem goDecrypt_nil_of_alpha (text : List Char) (ki : Nat)
    (h : ∃ c ∈ text, lowerInAscii c = true) :
    goDecrypt [] text ki = none := by
  induction text generalizing ki with
  | nil => simp at h
  | cons c rest ih =>
    by_cases hc : lowerInAscii c = true
    · simp [goDecrypt, hc]
    · have hrest : ∃ d ∈ rest, lowerInAscii d = true := by
        rcases h with ⟨d, hd, hda⟩
        rcases List.mem_cons.mp hd with rfl | hd'
        · exact absurd hda hc
        · exact ⟨d, hd', hda⟩
      simp only [goDecrypt, hc, Bool.false_eq_true, if_false]
      rw [ih ki hrest]
      rfl

/-- With a non-empty key the decrypt loop never fails. -/
theorem goDecrypt_cons_isSome (k0 : Char) (ks : List Char) (text : List Char) (ki : Nat) :
    ∃ out, goDecrypt (k0 :: ks) text ki = some out := by
  induction text generalizing ki with
  | nil => exact ⟨[], rfl⟩
  | cons c rest ih =>
    by_cases hc : lowerInAscii c = true
    · obtain ⟨out, hout⟩ := ih (ki + 1)
      refine ⟨decryptChar c
        ((((k0 :: ks).get ⟨ki % (ks.length + 1), Nat.mod_lt _ (Nat.succ_pos _)⟩).toNat : Int)
          - 97) :: out, ?_⟩
      simp only [goDecrypt, hc, if_true]
      rw [hout]
      rfl
    · obtain ⟨out, hout⟩ := ih ki
      refine ⟨c :: out, ?_⟩
      simp only [goDecrypt, hc, Bool.false_eq_true, if_false]
      rw [hout]
      rfl

/-- `key.lower()` is the identity on a key of lowercase ASCII letters. -/
theorem map_pyLowerChar_of_lower (key : List Char)
    (h : ∀ c ∈ key, 97 ≤ c.toNat ∧ c.toNat ≤ 122) :
    key.map pyLowerChar = key := by
  conv_rhs => rw [← List.map_id key]
  refine List.map_congr_left fun c hc => ?_
  have hb := h c hc
  have : pyLowerOrd c = c.toNat := by
    simp only [pyLowerOrd]
    rw [if_neg (by omega), if_neg (by omega)]
  rw [pyLowerChar, this, Char.ofNat_toNat, id]

/-! ### C7: behaviour on the empty key -/

/-- C7 (amended): `decrypt_vigenere` with a zero-length key fails (with the
`StopIteration` of `next` on the exhausted key cycle) exactly when the text
contains at least one character the codec treats as alphabetic; a text with
no such character is returned unchanged, silently. -/
theorem decrypt_empty_key_fails_iff (text : List Char) :
    (decrypt_vigenere text [] = none ↔ ∃ c ∈ text, lowerInAscii c = true) ∧
    ((∀ c ∈ text, lowerInAscii c = false) → decrypt_vigenere text [] = some text) := by
  constructor
  · constructor
    · intro hnone
      by_contra hno
      push_neg at hno
      have h : ∀ c ∈ text, lowerInAscii c = false := by
        intro c hc
        exact Bool.not_eq_true _ ▸ (Bool.eq_false_iff.mpr (hno c hc))
      rw [show decrypt_vigenere text [] = goDecrypt [] text 0 from rfl,
        goDecrypt_nil_of_no_alpha text 0 h] at hnone
      exact Option.noConfusion hnone
    · intro h
      exact goDecrypt_nil_of_alpha text 0 h
  · intro h
    exact goDecrypt_nil_of_no_alpha text 0 h

/-- C7 counterexample: on the all-digit text `"123"` the empty key does not
fail — `decrypt_vigenere` silently returns the text. -/
theorem decrypt_empty_key_silent :
    decrypt_vigenere ['1', '2', '3'] [] = some ['1', '2', '3'] ∧
    decrypt_vigenere ['1', '2', '3'] [] ≠ none := by decide

theorem decrypt_empty_key_fails_iff_witness :
    decrypt_vigenere ['#'] [] = some ['#'] :=
  (decrypt_empty_key_fails_iff ['#']).2 (by decide)

/-! ### C1: encrypt-then-decrypt round trip -/

theorem decryptChar_zero {c : Char} (hc : lowerInAscii c = true)
    (hk : c.toNat ≠ 0x212A) : decryptChar c 0 = c := by
  rcases (lowerInAscii_iff c).mp hc with h | h | h
  · apply char_eq_of_toNat
    rw [decryptChar_toNat_of_lower 0 h]
    omega
  · apply char_eq_of_toNat
    rw [decryptChar_toNat_of_upper 0 h]
    omega
  · exact absurd h hk

theorem goDecrypt_cons_alpha (k0 c : Char) (ks rest : List Char) (ki : Nat)
    (hc : lowerInAscii c = true) :
    goDecrypt (k0 :: ks) (c :: rest) ki =
      (goDecrypt (k0 :: ks) rest (ki + 1)).map
        (fun l => decryptChar c
          ((((k0 :: ks).get ⟨ki % (ks.length + 1),
              Nat.mod_lt _ (Nat.succ_pos _)⟩).toNat : Int) - 97) :: l) := by
  simp only [goDecrypt, hc, if_true]

theorem goDecrypt_cons_nonalpha (key : List Char) (c : Char) (rest : List Char)
    (ki : Nat) (hc : lowerInAscii c = false) :
    goDecrypt key (c :: rest) ki = (goDecrypt key rest ki).map (fun l => c :: l) := by
  simp only [goDecrypt, hc, Bool.false_eq_true, if_false]

theorem goEncrypt_cons_alpha (k0 c : Char) (ks rest : List Char) (ki : Nat)
    (hc : lowerInAscii c = true) :
    goEncrypt (k0 :: ks) (c :: rest) ki =
      (goEncrypt (k0 :: ks) rest (ki + 1)).map
        (fun l => encryptChar c
          ((((k0 :: ks).get ⟨ki % (ks.length + 1),
              Nat.mod_lt _ (Nat.succ_pos _)⟩).toNat : Int) - 97) :: l) := by
  simp only [goEncrypt, hc, if_true]

theorem goEncrypt_cons_nonalpha (key : List Char) (c : Char) (rest : List Char)
    (ki : Nat) (hc : lowerInAscii c = false) :
    goEncrypt key (c :: rest) ki = (goEncrypt key rest ki).map (fun l => c :: l) := by
  simp only [goEncrypt, hc, Bool.false_eq_true, if_false]

theorem goEncrypt_goDecrypt (k0 : Char) (ks : List Char) :
    ∀ (text : List Char) (ki : Nat), (∀ c ∈ text, c.toNat ≠ 0x212A) →
      ∃ e, goEncrypt (k0 :: ks) text ki = some e ∧
        goDecrypt (k0 :: ks) e ki = some text := by
  intro text
  induction text with
  | nil => exact fun ki _ => ⟨[], rfl, rfl⟩
  | cons c rest ih =>
    intro ki hk
    have hrest : ∀ d ∈ rest, d.toNat ≠ 0x212A :=
      fun d hd => hk d (List.mem_cons_of_mem c hd)
    by_cases hc : lowerInAscii c = true
    · obtain ⟨e, he, hd⟩ := ih (ki + 1) hrest
      have hkel : c.toNat ≠ 0x212A := hk c (List.mem_cons_self c rest)
      obtain ⟨hea, hdec⟩ := encryptChar_roundtrip
        ((((k0 :: ks).get ⟨ki % (ks.length + 1),
            Nat.mod_lt _ (Nat.succ_pos _)⟩).toNat : Int) - 97) hc hkel
      refine ⟨encryptChar c
        ((((k0 :: ks).get ⟨ki % (ks.length + 1),
            Nat.mod_lt _ (Nat.succ_pos _)⟩).toNat : Int) - 97) :: e, ?_, ?_⟩
      · rw [goEncrypt_cons_alpha k0 c ks rest ki hc, he]
        rfl
      · rw [goDecrypt_cons_alpha k0 _ ks e ki hea, hd]
        simp only [Option.map_some', hdec]
    · obtain ⟨e, he, hd⟩ := ih ki hrest
      have hc' : lowerInAscii c = false := Bool.eq_false_iff.mpr hc
      refine ⟨c :: e, ?_, ?_⟩
      · rw [goEncrypt_cons_nonalpha _ c rest ki hc', he]
        rfl
      · rw [goDecrypt_cons_nonalpha _ c e ki hc', hd]
        rfl

/-- C1 (amended): for every text containing no U+212A KELVIN SIGN and every
non-empty key of lowercase ASCII letters, decrypting the §4.5 encryption of
the text with the same key returns the original text exactly (punctuation,
digits, whitespace and uppercase letters included). -/
theorem vigenere_roundtrip (text key : List Char) (hk : key ≠ [])
    (hlow : ∀ c ∈ key, 97 ≤ c.toNat ∧ c.toNat ≤ 122)
    (ht : ∀ c ∈ text, c.toNat ≠ 0x212A) :
    ∃ e, encrypt_vigenere text key = some e ∧ decrypt_vigenere e key = some text := by
  cases key with
  | nil => exact absurd rfl hk
  | cons k0 ks =>
    have hmap : (k0 :: ks).map pyLowerChar = k0 :: ks :=
      map_pyLowerChar_of_lower _ hlow
    simp only [encrypt_vigenere, decrypt_vigenere, hmap]
    exact goEncrypt_goDecrypt k0 ks text 0 ht

/-- C1 counterexample: the text consisting of the single character U+212A
KELVIN SIGN (a valid text: the claim quantifies over every text) encrypts
under key `"a"` to ASCII `"K"`, which decrypts back to ASCII `"K"`, not to
the original text — the round trip fails. -/
theorem vigenere_roundtrip_kelvin :
    encrypt_vigenere [Char.ofNat 0x212A] ['a'] = some ['K'] ∧
    decrypt_vigenere ['K'] ['a'] = some ['K'] ∧
    (['K'] : List Char) ≠ [Char.ofNat 0x212A] := by decide

theorem vigenere_roundtrip_witness :
    ∃ e, encrypt_vigenere ['H', 'i', ' ', '5', '!'] ['k', 'e', 'y'] = some e ∧
      decrypt_vigenere e ['k', 'e', 'y'] = some ['H', 'i', ' ', '5', '!'] :=
  vigenere_roundtrip _ _ (by decide) (by decide) (by decide)

/-! ### C10: the all-(a) key is an identity -/

theorem goDecrypt_replicate_a (m : Nat) :
    ∀ (text : List Char) (ki : Nat), (∀ c ∈ text, c.toNat ≠ 0x212A) →
      goDecrypt (List.replicate (m + 1) 'a') text ki = some text := by
  intro text
  induction text with
  | nil => exact fun ki _ => rfl
  | cons c rest ih =>
    intro ki h
    have hrest : ∀ d ∈ rest, d.toNat ≠ 0x212A :=
      fun d hd => h d (List.mem_cons_of_mem c hd)
    have hget : ∀ i : Fin ('a' :: List.replicate m 'a').length,
        ('a' :: List.replicate m 'a').get i = 'a' := by
      intro i
      match i with
      | ⟨0, _⟩ => rfl
      | ⟨j + 1, hj⟩ =>
        exact List.get_replicate 'a'
          ⟨j, by simp only [List.length_cons, List.length_replicate] at hj ⊢; omega⟩
    by_cases hc : lowerInAscii c = true
    · rw [List.replicate_succ, goDecrypt_cons_alpha 'a' c _ rest ki hc, hget,
        ← List.replicate_succ, ih (ki + 1) hrest]
      have hsh : (('a'.toNat : Int) - 97) = 0 := by decide
      rw [hsh, decryptChar_zero hc (h c (List.mem_cons_self c rest))]
      rfl
    · rw [goDecrypt_cons_nonalpha _ c rest ki (Bool.eq_false_iff.mpr hc), ih ki hrest]
      rfl

/-- C10 (amended): for every text containing no U+212A KELVIN SIGN and every
`n ≥ 1`, decrypting with the key `'a'` repeated `n` times (shift 0 at every
position) returns the text unchanged. -/
theorem decrypt_identity_key (text : List Char) (n : Nat) (hn : 1 ≤ n)
    (ht : ∀ c ∈ text, c.toNat ≠ 0x212A) :
    decrypt_vigenere text (List.replicate n 'a') = some text := by
  obtain ⟨m, rfl⟩ : ∃ m, n = m + 1 := ⟨n - 1, by omega⟩
  have ha : pyLowerChar 'a' = 'a' := by decide
  have hmap : (List.replicate (m + 1) 'a').map pyLowerChar = List.replicate (m + 1) 'a' := by
    rw [List.map_replicate, ha]
  rw [decrypt_vigenere, hmap]
  exact goDecrypt_replicate_a m text 0 ht

/-- C10 counterexample: on the one-character text U+212A KELVIN SIGN, the
key `"a"` (that is, `'a'` repeated once) does not return the text unchanged —
the output is the ASCII letter `K`. -/
theorem decrypt_identity_key_kelvin :
    decrypt_vigenere [Char.ofNat 0x212A] (List.replicate 1 'a') = some ['K'] ∧
    (some ['K'] : Option (List Char)) ≠ some [Char.ofNat 0x212A] := by decide

theorem decrypt_identity_key_witness :
    decrypt_vigenere ['Z', 'z', '?'] (List.replicate 3 'a') = some ['Z', 'z', '?'] :=
  decrypt_identity_key ['Z', 'z', '?'] 3 (by decide) (by decide)

/-! ### C6: case and format preservation -/

theorem goDecrypt_length (key : List Char) :
    ∀ (text : List Char) (ki : Nat) (out : List Char),
      goDecrypt key text ki = some out → out.length = text.length := by
  intro text
  induction text with
  | nil =>
    intro ki out h
    simp only [goDecrypt, Option.some.injEq] at h
    subst h
    rfl
  | cons c rest ih =>
    intro ki out h
    by_cases hc : lowerInAscii c = true
    · cases key with
      | nil => simp [goDecrypt, hc] at h
      | cons k0 ks =>
        rw [goDecrypt_cons_alpha k0 c ks rest ki hc] at h
        rcases Option.map_eq_some'.mp h with ⟨o, ho, rfl⟩
        simp only [List.length_cons, ih (ki + 1) o ho]
    · rw [goDecrypt_cons_nonalpha key c rest ki (Bool.eq_false_iff.mpr hc)] at h
      rcases Option.map_eq_some'.mp h with ⟨o, ho, rfl⟩
      simp only [List.length_cons, ih ki o ho]

/-- A character the codec does not treat as alphabetic is emitted unchanged
and consumes no key position: deleting it from the input merely deletes it
from the output, and the rest of the decryption is untouched. -/
theorem goDecrypt_skip (k0 : Char) (ks : List Char) (c : Char)
    (hc : lowerInAscii c = false) :
    ∀ (t1 t2 : List Char) (ki : Nat),
      goDecrypt (k0 :: ks) (t1 ++ c :: t2) ki =
        (goDecrypt (k0 :: ks) (t1 ++ t2) ki).map
          (fun o => o.take t1.length ++ c :: o.drop t1.length) := by
  intro t1
  induction t1 with
  | nil =>
    intro t2 ki
    simp only [List.nil_append, List.length_nil, List.take_zero, List.drop_zero]
    rw [goDecrypt_cons_nonalpha _ c t2 ki hc]
  | cons a t1 ih =>
    intro t2 ki
    by_cases ha : lowerInAscii a = true
    · simp only [List.cons_append]
      rw [goDecrypt_cons_alpha k0 a ks (t1 ++ c :: t2) ki ha,
        goDecrypt_cons_alpha k0 a ks (t1 ++ t2) ki ha, ih t2 (ki + 1)]
      cases goDecrypt (k0 :: ks) (t1 ++ t2) (ki + 1) with
      | none => rfl
      | some o =>
        simp only [Option.map_some', List.length_cons, List.take_succ_cons,
          List.drop_succ_cons, List.cons_append]
    · have ha' : lowerInAscii a = false := Bool.eq_false_iff.mpr ha
      simp only [List.cons_append]
      rw [goDecrypt_cons_nonalpha _ a (t1 ++ c :: t2) ki ha',
        goDecrypt_cons_nonalpha _ a (t1 ++ t2) ki ha', ih t2 ki]
      cases goDecrypt (k0 :: ks) (t1 ++ t2) ki with
      | none => rfl
      | some o =>
        simp only [Option.map_some', List.length_cons, List.take_succ_cons,
          List.drop_succ_cons, List.cons_append]

theorem goDecrypt_format (k0 : Char) (ks : List Char) :
    ∀ (text : List Char) (ki : Nat),
      ∃ out, goDecrypt (k0 :: ks) text ki = some out ∧
        (∀ (i : Nat) (c : Char), text[i]? = some c →
          ((97 ≤ c.toNat ∧ c.toNat ≤ 122) →
            ∃ d, out[i]? = some d ∧ 97 ≤ d.toNat ∧ d.toNat ≤ 122) ∧
          ((65 ≤ c.toNat ∧ c.toNat ≤ 90) →
            ∃ d, out[i]? = some d ∧ 65 ≤ d.toNat ∧ d.toNat ≤ 90) ∧
          (lowerInAscii c = false → out[i]? = some c)) := by
  intro text
  induction text with
  | nil =>
    intro ki
    refine ⟨[], rfl, fun i c hc => ?_⟩
    simp at hc
  | cons c rest ih =>
    intro ki
    by_cases hc : lowerInAscii c = true
    · obtain ⟨out, hout, hpos⟩ := ih (ki + 1)
      set s : Int :=
        (((k0 :: ks).get ⟨ki % (ks.length + 1),
          Nat.mod_lt _ (Nat.succ_pos _)⟩).toNat : Int) - 97 with hs
      refine ⟨decryptChar c s :: out, ?_, ?_⟩
      · rw [goDecrypt_cons_alpha k0 c ks rest ki hc, hout]
        rfl
      · intro i c0 hc0
        match i with
        | 0 =>
          simp only [List.getElem?_cons_zero, Option.some.injEq] at hc0
          subst hc0
          refine ⟨?_, ?_, ?_⟩
          · intro hlow
            have hd := decryptChar_toNat_of_lower s hlow
            exact ⟨decryptChar c s, by simp only [List.getElem?_cons_zero], by omega⟩
          · intro hupp
            have hd := decryptChar_toNat_of_upper s hupp
            exact ⟨decryptChar c s, by simp only [List.getElem?_cons_zero], by omega⟩
          · intro hfalse
            rw [hc] at hfalse
            exact Bool.noConfusion hfalse
        | (j + 1 : Nat) =>
          simp only [List.getElem?_cons_succ] at hc0 ⊢
          exact hpos j c0 hc0
    · have hc' : lowerInAscii c = false := Bool.eq_false_iff.mpr hc
      obtain ⟨out, hout, hpos⟩ := ih ki
      refine ⟨c :: out, ?_, ?_⟩
      · rw [goDecrypt_cons_nonalpha _ c rest ki hc', hout]
        rfl
      · intro i c0 hc0
        match i with
        | 0 =>
          simp only [List.getElem?_cons_zero, Option.some.injEq] at hc0
          subst hc0
          refine ⟨?_, ?_, fun _ => by simp only [List.getElem?_cons_zero]⟩
          · intro hlow
            exact absurd ((lowerInAscii_iff c).mpr (Or.inl hlow)) hc
          · intro hupp
            exact absurd ((lowerInAscii_iff c).mpr (Or.inr (Or.inl hupp))) hc
        | (j + 1 : Nat) =>
          simp only [List.getElem?_cons_succ] at hc0 ⊢
          exact hpos j c0 hc0

/-- C6 (amended): with a non-empty key, `decrypt_vigenere` maps each ASCII
alphabetic character to an alphabetic character of the same case at the same
position and passes every character that is neither an ASCII letter nor
U+212A KELVIN SIGN through unchanged at the same position, consuming no key
position there (deleting such a character from the text only deletes it from
the output).  U+212A, a non-ASCII letter, is the exception: the code treats
it as an uppercase letter because its Python `lower()` is ASCII `k`. -/
theorem decrypt_case_format (text key : List Char) (hk : key ≠ []) :
    ∃ out, decrypt_vigenere text key = some out ∧
      out.length = text.length ∧
      (∀ (i : Nat) (c : Char), text[i]? = some c →
        ((97 ≤ c.toNat ∧ c.toNat ≤ 122) →
          ∃ d, out[i]? = some d ∧ 97 ≤ d.toNat ∧ d.toNat ≤ 122) ∧
        ((65 ≤ c.toNat ∧ c.toNat ≤ 90) →
          ∃ d, out[i]? = some d ∧ 65 ≤ d.toNat ∧ d.toNat ≤ 90) ∧
        (lowerInAscii c = false → out[i]? = some c)) ∧
      (∀ (t1 : List Char) (c : Char) (t2 : List Char),
        text = t1 ++ c :: t2 → lowerInAscii c = false →
        decrypt_vigenere (t1 ++ t2) key =
          some (out.take t1.length ++ out.drop (t1.length + 1)) ∧
        out[t1.length]? = some c) := by
  cases key with
  | nil => exact absurd rfl hk
  | cons a l =>
    obtain ⟨out, hout, hpos⟩ := goDecrypt_format (pyLowerChar a) (l.map pyLowerChar) text 0
    have hlen : out.length = text.length := goDecrypt_length _ text 0 out hout
    refine ⟨out, hout, hlen, hpos, ?_⟩
    intro t1 c t2 htext hc
    subst htext
    have hskip := goDecrypt_skip (pyLowerChar a) (l.map pyLowerChar) c hc t1 t2 0
    rw [hskip] at hout
    obtain ⟨o, ho, hFo⟩ := Option.map_eq_some'.mp hout
    have holen : o.length = t1.length + t2.length := by
      rw [goDecrypt_length _ _ _ _ ho, List.length_append]
    have htake : (o.take t1.length).length = t1.length := by
      rw [List.length_take]
      omega
    constructor
    · show goDecrypt (pyLowerChar a :: l.map pyLowerChar) (t1 ++ t2) 0 = _
      rw [ho]
      congr 1
      rw [← hFo, List.take_left' htake,
        show o.take t1.length ++ c :: o.drop t1.length =
          (o.take t1.length ++ [c]) ++ o.drop t1.length from by simp,
        List.drop_left' (by rw [List.length_append, htake]; rfl),
        List.take_append_drop]
    · have hmid : ∀ (A B : List Char) (d : Char), (A ++ d :: B)[A.length]? = some d := by
        intro A B d
        rw [List.getElem?_append_right (Nat.le_refl _), Nat.sub_self,
          List.getElem?_cons_zero]
      have h2 := hmid (o.take t1.length) (o.drop t1.length) c
      rw [htake] at h2
      rw [← hFo]
      exact h2

/-- C6 counterexample: U+212A KELVIN SIGN is a non-ASCII letter — the claim
says such a character is passed through unchanged — but `decrypt_vigenere`
maps it (under key `"b"`, shift 1) to the ASCII letter `J`. -/
theorem decrypt_case_format_kelvin :
    decrypt_vigenere [Char.ofNat 0x212A] ['b'] = some ['J'] ∧
    (['J'] : List Char) ≠ [Char.ofNat 0x212A] := by decide

theorem decrypt_case_format_witness :
    ∃ out, decrypt_vigenere ['A', 'b', '!'] ['k'] = some out ∧
      out.length = (['A', 'b', '!'] : List Char).length ∧
      (∀ (i : Nat) (c : Char), (['A', 'b', '!'] : List Char)[i]? = some c →
        ((97 ≤ c.toNat ∧ c.toNat ≤ 122) →
          ∃ d, out[i]? = some d ∧ 97 ≤ d.toNat ∧ d.toNat ≤ 122) ∧
        ((65 ≤ c.toNat ∧ c.toNat ≤ 90) →
          ∃ d, out[i]? = some d ∧ 65 ≤ d.toNat ∧ d.toNat ≤ 90) ∧
        (lowerInAscii c = false → out[i]? = some c)) ∧
      (∀ (t1 : List Char) (c : Char) (t2 : List Char),
        (['A', 'b', '!'] : List Char) = t1 ++ c :: t2 → lowerInAscii c = false →
        decrypt_vigenere (t1 ++ t2) ['k'] =
          some (out.take t1.length ++ out.drop (t1.length + 1)) ∧
        out[t1.length]? = some c) :=
  decrypt_case_format ['A', 'b', '!'] ['k'] (by decide)

/-! ### C3 and C8: coset partitioning -/

theorem sliceAux_getElem (step : Nat) (hstep : 1 ≤ step) :
    ∀ (s : List Char) (j n : Nat), (sliceAux step s j)[n]? = s[j + n * step]? := by
  intro s
  induction s with
  | nil => intro j n; simp [sliceAux]
  | cons c rest ih =>
    intro j n
    match j with
    | 0 =>
      match n with
      | 0 => simp [sliceAux]
      | m + 1 =>
        simp only [sliceAux, List.getElem?_cons_succ]
        rw [ih (step - 1) m,
          show 0 + (m + 1) * step = (step - 1 + m * step) + 1 from by
            rw [Nat.succ_mul]; omega,
          List.getElem?_cons_succ]
    | k + 1 =>
      simp only [sliceAux]
      rw [ih k n, show k + 1 + n * step = (k + n * step) + 1 from by omega,
        List.getElem?_cons_succ]

theorem sliceAux_length (step : Nat) (hstep : 1 ≤ step) :
    ∀ (s : List Char) (j : Nat),
      (sliceAux step s j).length = (s.length - j + step - 1) / step := by
  intro s
  induction s with
  | nil =>
    intro j
    simp only [sliceAux, List.length_nil]
    rw [Nat.div_eq_of_lt (by omega)]
  | cons c rest ih =>
    intro j
    match j with
    | 0 =>
      simp only [sliceAux, List.length_cons]
      rw [ih (step - 1)]
      have hstep' : rest.length - (step - 1) + step - 1 = rest.length ∨
          (rest.length - (step - 1) + step - 1 = step - 1 ∧ rest.length < step) := by
        omega
      have hgoal : rest.length + 1 - 0 + step - 1 = rest.length + step := by omega
      rw [hgoal, Nat.add_div_right _ (by omega)]
      rcases hstep' with h | ⟨h, hlt⟩
      · rw [h]
      · rw [h, Nat.div_eq_of_lt (by omega), Nat.div_eq_of_lt (by omega)]
    | k + 1 =>
      simp only [sliceAux, List.length_cons]
      rw [ih k, Nat.succ_sub_succ]

theorem sliceAux_shift (step : Nat) :
    ∀ (s : List Char) (k : Nat), sliceAux step s k = sliceAux step (s.drop k) 0 := by
  intro s
  induction s with
  | nil => intro k; simp [sliceAux]
  | cons c rest ih =>
    intro k
    match k with
    | 0 => rfl
    | k + 1 =>
      simp only [sliceAux, List.drop_succ_cons]
      exact ih k

theorem mapM_eq_some_of (f : Nat → Option (List Char)) (g : Nat → List Char) :
    ∀ l : List Nat, (∀ x ∈ l, f x = some (g x)) → l.mapM f = some (l.map g) := by
  intro l
  induction l with
  | nil => intro _; rfl
  | cons a l ih =>
    intro h
    rw [List.mapM_cons, h a (List.mem_cons_self a l),
      ih fun x hx => h x (List.mem_cons_of_mem a hx)]
    rfl

/-- For `N ≥ 1`, `get_cosets` succeeds and returns the `N` stride-`N` slices
of the text. -/
theorem get_cosets_eq (C : List Char) (N : Nat) (hN : 1 ≤ N) :
    get_cosets C N = some ((List.range N).map (fun i => sliceAux N (C.drop i) 0)) := by
  apply mapM_eq_some_of
  intro i _
  rw [pySliceEvery, if_neg (by omega)]

theorem sum_map_zero (l : List Nat) : (l.map (fun _ => (0 : Nat))).sum = 0 := by
  induction l with
  | nil => rfl
  | cons a l ih => simp [ih]

/-- The coset lengths sum to the text length (each text position lands in
exactly one stride-`N` slice). -/
theorem sum_coset_lengths (M : Nat) :
    ∀ C : List Char,
      (((List.range (M + 1)).map
        (fun i => (sliceAux (M + 1) (C.drop i) 0).length)).sum) = C.length := by
  intro C
  induction C with
  | nil =>
    simp only [List.drop_nil, List.length_nil]
    have : (fun _ : Nat => (sliceAux (M + 1) [] 0).length) = fun _ : Nat => (0 : Nat) := by
      funext i
      rfl
    rw [this, sum_map_zero]
  | cons c C' ih =>
    rw [List.range_succ_eq_map, List.map_cons, List.sum_cons]
    have hhead : (sliceAux (M + 1) ((c :: C').drop 0) 0).length =
        (sliceAux (M + 1) (C'.drop M) 0).length + 1 := by
      show (sliceAux (M + 1) (c :: C') 0).length = _
      simp only [sliceAux, List.length_cons, Nat.add_sub_cancel]
      rw [sliceAux_shift]
    have htail : ((List.range M).map Nat.succ).map
          (fun i => (sliceAux (M + 1) ((c :: C').drop i) 0).length) =
        (List.range M).map (fun i => (sliceAux (M + 1) (C'.drop i) 0).length) := by
      rw [List.map_map]
      rfl
    rw [hhead, htail]
    have hsplit := ih
    rw [List.range_succ, List.map_append, List.sum_append] at hsplit
    simp only [List.map_cons, List.sum_cons, List.map_nil, List.sum_nil] at hsplit
    simp only [List.length_cons]
    omega

/-- C3: for every lowercase text `C` and key length `N ≥ 1`, `get_cosets`
returns exactly `N` cosets; the `j`-th text character is the `j / N`-th
character of coset `j % N` (round-robin interleaving reproduces `C`); the
coset lengths sum to `len C`; and each coset length is `len C / N` or one
more. -/
theorem get_cosets_reconstruction (C : List Char) (N : Nat) (hN : 1 ≤ N)
    (hC : ∀ c ∈ C, 97 ≤ c.toNat ∧ c.toNat ≤ 122) :
    ∃ css, get_cosets C N = some css ∧
      css.length = N ∧
      (∀ j : Nat, j < C.length →
        (css[j % N]?.bind fun cs => cs[j / N]?) = C[j]?) ∧
      (css.map List.length).sum = C.length ∧
      (∀ cs ∈ css, cs.length = C.length / N ∨ cs.length = C.length / N + 1) := by
  refine ⟨_, get_cosets_eq C N hN, ?_, ?_, ?_, ?_⟩
  · rw [List.length_map, List.length_range]
  · intro j hj
    have hmod : j % N < N := Nat.mod_lt _ (by omega)
    rw [List.getElem?_map, List.getElem?_range hmod]
    simp only [Option.map_some', Option.some_bind]
    rw [sliceAux_getElem N hN, List.getElem?_drop,
      show j % N + (0 + j / N * N) = j from by
        have h := Nat.div_add_mod j N
        calc j % N + (0 + j / N * N) = N * (j / N) + j % N := by ring
          _ = j := h]
  · obtain ⟨M, rfl⟩ : ∃ M, N = M + 1 := ⟨N - 1, by omega⟩
    rw [List.map_map]
    exact sum_coset_lengths M C
  · intro cs hcs
    rw [List.mem_map] at hcs
    obtain ⟨i, hi, rfl⟩ := hcs
    rw [List.mem_range] at hi
    rw [sliceAux_length N hN, List.length_drop]
    simp only [Nat.sub_zero]
    set L := C.length with hL
    have hle : L / N ≤ (L - i + N - 1) / N := by
      apply Nat.div_le_div_right
      omega
    have hlt : (L - i + N - 1) / N < L / N + 2 := by
      rw [Nat.div_lt_iff_lt_mul (by omega : 0 < N),
        show (L / N + 2) * N = N * (L / N) + 2 * N from by ring]
      have h := Nat.div_add_mod L N
      have hm : L % N < N := Nat.mod_lt _ (by omega)
      omega
    omega

theorem get_cosets_reconstruction_witness :
    ∃ css, get_cosets ['a', 'b', 'c'] 2 = some css ∧
      css.length = 2 ∧
      (∀ j : Nat, j < (['a', 'b', 'c'] : List Char).length →
        (css[j % 2]?.bind fun cs => cs[j / 2]?) = (['a', 'b', 'c'] : List Char)[j]?) ∧
      (css.map List.length).sum = (['a', 'b', 'c'] : List Char).length ∧
      (∀ cs ∈ css, cs.length = (['a', 'b', 'c'] : List Char).length / 2 ∨
        cs.length = (['a', 'b', 'c'] : List Char).length / 2 + 1) :=
  get_cosets_reconstruction ['a', 'b', 'c'] 2 (by decide) (by decide)

/-- C8 (amended): `get_cosets` is total and never fails for every key length
`N ≥ 1`; for `N = 0` it does not fail either — the list comprehension
performs zero iterations, so the invalid slice is never evaluated and the
empty list of cosets is returned. -/
theorem get_cosets_total (C : List Char) :
    (∀ N : Nat, 1 ≤ N → ∃ css, get_cosets C N = some css) ∧
    get_cosets C 0 = some [] :=
  ⟨fun N hN => ⟨_, get_cosets_eq C N hN⟩, rfl⟩

/-- C8 counterexample: at key length 0 `get_cosets` returns a value (the
empty list) instead of failing with an error. -/
theorem get_cosets_zero_returns :
    get_cosets ['a', 'b', 'c'] 0 = some [] ∧
    get_cosets ['a', 'b', 'c'] 0 ≠ none := by decide

theorem get_cosets_total_witness :
    (∃ css, get_cosets ['a', 'b'] 2 = some css) ∧ get_cosets ['a', 'b'] 0 = some [] :=
  ⟨(get_cosets_total ['a', 'b']).1 2 (by decide), (get_cosets_total ['a', 'b']).2⟩

/-! ### C2: frequency analysis selects the least best-scoring shift -/

theorem faFold_mono (coset : List Char) :
    ∀ (l : List Nat) (b : Nat) (v : Int), v ≤ (l.foldl (faStep coset) (b, v)).2 := by
  intro l
  induction l with
  | nil => intro b v; exact le_refl v
  | cons a l ih =>
    intro b v
    by_cases h : (scoreShift coset a : Int) > v
    · simp only [List.foldl_cons, faStep, h, if_true]
      exact le_of_lt (lt_of_lt_of_le h (ih a (scoreShift coset a)))
    · simp only [List.foldl_cons, faStep, h, if_false]
      exact ih b v

theorem faFold_max (coset : List Char) :
    ∀ (l : List Nat) (b : Nat) (v : Int) (t : Nat), t ∈ l →
      (scoreShift coset t : Int) ≤ (l.foldl (faStep coset) (b, v)).2 := by
  intro l
  induction l with
  | nil => intro b v t ht; simp at ht
  | cons a l ih =>
    intro b v t ht
    by_cases h : (scoreShift coset a : Int) > v
    · simp only [List.foldl_cons, faStep, h, if_true]
      rcases List.mem_cons.mp ht with rfl | ht'
      · exact faFold_mono coset l t (scoreShift coset t)
      · exact ih a (scoreShift coset a) t ht'
    · simp only [List.foldl_cons, faStep, h, if_false]
      rcases List.mem_cons.mp ht with rfl | ht'
      · exact le_trans (not_lt.mp h) (faFold_mono coset l b v)
      · exact ih b v t ht'

theorem faFold_link (coset : List Char) :
    ∀ (l : List Nat) (b : Nat) (v : Int),
      (l.foldl (faStep coset) (b, v)).2 =
        (scoreShift coset (l.foldl (faStep coset) (b, v)).1 : Int) ∨
      l.foldl (faStep coset) (b, v) = (b, v) := by
  intro l
  induction l with
  | nil => intro b v; exact Or.inr rfl
  | cons a l ih =>
    intro b v
    by_cases h : (scoreShift coset a : Int) > v
    · simp only [List.foldl_cons, faStep, h, if_true]
      rcases ih a (scoreShift coset a) with h1 | h1
      · exact Or.inl h1
      · rw [h1]
        exact Or.inl rfl
    · simp only [List.foldl_cons, faStep, h, if_false]
      exact ih b v

theorem faFold_mem (coset : List Char) :
    ∀ (l : List Nat) (b : Nat) (v : Int),
      (l.foldl (faStep coset) (b, v)).1 = b ∨
      (l.foldl (faStep coset) (b, v)).1 ∈ l := by
  intro l
  induction l with
  | nil => intro b v; exact Or.inl rfl
  | cons a l ih =>
    intro b v
    by_cases h : (scoreShift coset a : Int) > v
    · simp only [List.foldl_cons, faStep, h, if_true]
      rcases ih a (scoreShift coset a) with h1 | h1
      · exact Or.inr (by rw [h1]; exact List.mem_cons_self a l)
      · exact Or.inr (List.mem_cons_of_mem a h1)
    · simp only [List.foldl_cons, faStep, h, if_false]
      rcases ih b v with h1 | h1
      · exact Or.inl h1
      · exact Or.inr (List.mem_cons_of_mem a h1)

theorem faFold_strict (coset : List Char) :
    ∀ (l : List Nat) (b : Nat) (v : Int),
      (l.foldl (faStep coset) (b, v)).1 ≠ b → v < (l.foldl (faStep coset) (b, v)).2 := by
  intro l
  induction l with
  | nil => intro b v hne; exact absurd rfl hne
  | cons a l ih =>
    intro b v hne
    by_cases h : (scoreShift coset a : Int) > v
    · simp only [List.foldl_cons, faStep, h, if_true] at hne ⊢
      exact lt_of_lt_of_le h (faFold_mono coset l a (scoreShift coset a))
    · simp only [List.foldl_cons, faStep, h, if_false] at hne ⊢
      exact ih b v hne

theorem faFold_tie (coset : List Char) :
    ∀ (l : List Nat), l.Pairwise (· < ·) →
      ∀ (b : Nat) (v : Int), (∀ t ∈ l, b < t) →
        ∀ t ∈ l, t < (l.foldl (faStep coset) (b, v)).1 →
          (scoreShift coset t : Int) < (l.foldl (faStep coset) (b, v)).2 := by
  intro l
  induction l with
  | nil => intro _ b v _ t ht; simp at ht
  | cons a l ih =>
    intro hpw b v hbl t ht htlt
    have hpl : l.Pairwise (· < ·) := (List.pairwise_cons.mp hpw).2
    have hal : ∀ x ∈ l, a < x := (List.pairwise_cons.mp hpw).1
    by_cases h : (scoreShift coset a : Int) > v
    · simp only [List.foldl_cons, faStep, h, if_true] at htlt ⊢
      rcases List.mem_cons.mp ht with rfl | ht'
      · have hne : (l.foldl (faStep coset) (t, (scoreShift coset t : Int))).1 ≠ t := by
          omega
        exact faFold_strict coset l t _ hne
      · exact ih hpl a (scoreShift coset a) hal t ht' htlt
    · simp only [List.foldl_cons, faStep, h, if_false] at htlt ⊢
      rcases List.mem_cons.mp ht with rfl | ht'
      · rcases faFold_mem coset l b v with h1 | h1
        · rw [h1] at htlt
          exact absurd htlt (by have := hbl t (List.mem_cons_self t l); omega)
        · have hne : (l.foldl (faStep coset) (b, v)).1 ≠ b := by
            have := hbl (l.foldl (faStep coset) (b, v)).1
              (List.mem_cons_of_mem t h1)
            omega
          exact lt_of_le_of_lt (not_lt.mp h) (faFold_strict coset l b v hne)
      · exact ih hpl b v (fun x hx => hbl x (List.mem_cons_of_mem a hx)) t ht' htlt

/-- C2: on a coset of lowercase letters, `frequency_analysis` returns the
shift in `[0, 25]` whose score (sum over distinct letters `c` of
`count(c) * (26 - rank of ((c - 97) - s) % 26 in ENGLISH_FREQ)`) is maximal,
every strictly smaller shift scoring strictly less (ties keep the smallest
shift, since later equal scores do not overwrite); the empty coset yields
shift 0. -/
theorem frequency_analysis_spec (coset : List Char)
    (hc : ∀ c ∈ coset, 97 ≤ c.toNat ∧ c.toNat ≤ 122) :
    frequency_analysis coset < 26 ∧
    (∀ t : Nat, t < 26 →
      scoreShift coset t ≤ scoreShift coset (frequency_analysis coset)) ∧
    (∀ t : Nat, t < frequency_analysis coset →
      scoreShift coset t < scoreShift coset (frequency_analysis coset)) ∧
    (coset = [] → frequency_analysis coset = 0) := by
  set r := (List.range 26).foldl (faStep coset) (0, -1) with hr
  have hfa : frequency_analysis coset = r.1 := rfl
  have hmax : ∀ t : Nat, t < 26 → (scoreShift coset t : Int) ≤ r.2 := by
    intro t ht
    exact faFold_max coset (List.range 26) 0 (-1) t (List.mem_range.mpr ht)
  have hlink : r.2 = (scoreShift coset r.1 : Int) := by
    rcases faFold_link coset (List.range 26) 0 (-1) with h | h
    · exact h
    · exfalso
      have h0 := hmax 0 (by omega)
      rw [← hr] at h
      rw [h] at h0
      have h0' : (scoreShift coset 0 : Int) ≤ -1 := h0
      have := Int.natCast_nonneg (scoreShift coset 0)
      omega
  have hbound : r.1 < 26 := by
    rcases faFold_mem coset (List.range 26) 0 (-1) with h | h
    · rw [← hr] at h
      omega
    · rw [← hr] at h
      exact List.mem_range.mp h
  have htie : ∀ t : Nat, t < r.1 → (scoreShift coset t : Int) < r.2 := by
    have hsplit : List.range 26 = 0 :: (List.range 25).map Nat.succ :=
      List.range_succ_eq_map 25
    have hcond : ((scoreShift coset 0 : Int)) > -1 := by
      have := Int.natCast_nonneg (scoreShift coset 0)
      omega
    have hstep0 : faStep coset (0, -1) 0 = (0, (scoreShift coset 0 : Int)) := by
      simp only [faStep]
      rw [if_pos hcond]
    have hr2 : r = ((List.range 25).map Nat.succ).foldl (faStep coset)
        (0, (scoreShift coset 0 : Int)) := by
      rw [hr, hsplit, List.foldl_cons, hstep0]
    have hpw : ((List.range 25).map Nat.succ).Pairwise (· < ·) := by
      refine List.Pairwise.map Nat.succ (fun a b h => Nat.succ_lt_succ h) ?_
      exact List.pairwise_lt_range 25
    have hpos : ∀ t ∈ (List.range 25).map Nat.succ, 0 < t := by
      intro t ht
      rcases List.mem_map.mp ht with ⟨x, _, rfl⟩
      exact Nat.succ_pos x
    intro t htlt
    by_cases ht0 : t = 0
    · subst ht0
      have hne : r.1 ≠ 0 := by omega
      rw [hr2] at hne ⊢
      exact faFold_strict coset _ 0 _ hne
    · have htmem : t ∈ (List.range 25).map Nat.succ := by
        rcases Nat.exists_eq_succ_of_ne_zero ht0 with ⟨x, rfl⟩
        refine List.mem_map.mpr ⟨x, List.mem_range.mpr ?_, rfl⟩
        omega
      rw [hr2] at htlt ⊢
      exact faFold_tie coset _ hpw 0 _ hpos t htmem htlt
  refine ⟨hfa ▸ hbound, ?_, ?_, ?_⟩
  · intro t ht
    have h := hmax t ht
    rw [hlink] at h
    rw [hfa]
    exact_mod_cast h
  · intro t ht
    rw [hfa] at ht ⊢
    have h := htie t ht
    rw [hlink] at h
    exact_mod_cast h
  · intro h
    subst h
    by_contra hne
    have hp : 0 < frequency_analysis ([] : List Char) := Nat.pos_of_ne_zero hne
    rw [hfa] at hp
    have h := htie 0 hp
    rw [hlink] at h
    have h1 : scoreShift ([] : List Char) 0 = 0 := rfl
    have h2 : scoreShift ([] : List Char) r.1 = 0 := rfl
    rw [h1, h2] at h
    exact absurd h (lt_irrefl _)

theorem frequency_analysis_spec_witness :
    frequency_analysis ['a', 'b', 'b'] < 26 ∧
    (∀ t : Nat, t < 26 →
      scoreShift ['a', 'b', 'b'] t ≤
        scoreShift ['a', 'b', 'b'] (frequency_analysis ['a', 'b', 'b'])) ∧
    (∀ t : Nat, t < frequency_analysis ['a', 'b', 'b'] →
      scoreShift ['a', 'b', 'b'] t <
        scoreShift ['a', 'b', 'b'] (frequency_analysis ['a', 'b', 'b'])) ∧
    ((['a', 'b', 'b'] : List Char) = [] → frequency_analysis ['a', 'b', 'b'] = 0) :=
  frequency_analysis_spec ['a', 'b', 'b'] (by decide)

/-! ### Kasiski examination: the sequences dict -/

theorem updateAssoc_spec (s : List Char) (i : Nat) :
    ∀ m : List (List Char × List Nat), (m.map Prod.fst).Nodup →
      ((updateAssoc m s i).map Prod.fst =
        if s ∈ m.map Prod.fst then m.map Prod.fst else m.map Prod.fst ++ [s]) ∧
      (∀ kv' ∈ updateAssoc m s i,
        (kv'.1 ≠ s ∧ kv' ∈ m) ∨
        (kv'.1 = s ∧ ((s ∉ m.map Prod.fst ∧ kv' = (s, [i])) ∨
          (∃ v, (s, v) ∈ m ∧ kv' = (s, v ++ [i]))))) := by
  intro m
  induction m with
  | nil =>
    intro _
    refine ⟨by simp [updateAssoc], fun kv' h => ?_⟩
    simp only [updateAssoc, List.mem_singleton] at h
    subst h
    exact Or.inr ⟨rfl, Or.inl ⟨by simp, rfl⟩⟩
  | cons kv rest ih =>
    intro hnod
    have hnod' : (rest.map Prod.fst).Nodup := (List.nodup_cons.mp (by simpa using hnod)).2
    have hknot : kv.1 ∉ rest.map Prod.fst := (List.nodup_cons.mp (by simpa using hnod)).1
    by_cases hk : kv.1 = s
    · subst hk
      have hred : updateAssoc (kv :: rest) kv.1 i = (kv.1, kv.2 ++ [i]) :: rest := by
        simp [updateAssoc]
      constructor
      · rw [hred, List.map_cons, List.map_cons]
        rw [if_pos (List.mem_cons_self _ _)]
      · intro kv' h
        rw [hred] at h
        rcases List.mem_cons.mp h with h1 | h1
        · refine Or.inr ⟨by rw [h1], Or.inr ⟨kv.2, ?_, by rw [h1]⟩⟩
          have : (kv.1, kv.2) = kv := rfl
          rw [this]
          exact List.mem_cons_self _ _
        · by_cases hne : kv'.1 = kv.1
          · exfalso
            apply hknot
            rw [← hne]
            exact List.mem_map_of_mem Prod.fst h1
          · exact Or.inl ⟨hne, List.mem_cons_of_mem _ h1⟩
    · obtain ⟨ihk, ihe⟩ := ih hnod'
      have hred : updateAssoc (kv :: rest) s i = kv :: updateAssoc rest s i := by
        simp only [updateAssoc, if_neg hk]
      constructor
      · rw [hred, List.map_cons, ihk, List.map_cons]
        by_cases hs : s ∈ rest.map Prod.fst
        · rw [if_pos hs, if_pos (List.mem_cons_of_mem _ hs)]
        · rw [if_neg hs, if_neg (by
            intro hmem
            rcases List.mem_cons.mp hmem with h | h
            · exact hk h.symm
            · exact hs h)]
          rfl
      · intro kv' h
        rw [hred] at h
        rcases List.mem_cons.mp h with rfl | h
        · exact Or.inl ⟨fun he => hk he, List.mem_cons_self _ _⟩
        · rcases ihe kv' h with ⟨hne, hm⟩ | ⟨heq, hsh⟩
          · exact Or.inl ⟨hne, List.mem_cons_of_mem _ hm⟩
          · refine Or.inr ⟨heq, ?_⟩
            rcases hsh with ⟨hnotin, hshape⟩ | ⟨v, hvin, hshape⟩
            · refine Or.inl ⟨?_, hshape⟩
              intro hmem
              rcases List.mem_cons.mp hmem with hh | hh
              · exact hk hh.symm
              · exact hnotin hh
            · exact Or.inr ⟨v, List.mem_cons_of_mem _ hvin, hshape⟩

theorem buildSeqAux_inv (C : List Char) : ∀ n : Nat,
    ((buildSeqAux C n).map Prod.fst).Nodup ∧
    (∀ kv ∈ buildSeqAux C n,
      kv.2 = (List.range n).filter (fun i => decide (win3 C i = kv.1))) ∧
    (∀ s, s ∈ (buildSeqAux C n).map Prod.fst ↔ ∃ i, i < n ∧ win3 C i = s) := by
  intro n
  induction n with
  | zero =>
    refine ⟨List.nodup_nil, fun kv h => absurd h (List.not_mem_nil kv), fun s => ?_⟩
    simp [buildSeqAux]
  | succ n ih =>
    obtain ⟨hnod, hval, hmem⟩ := ih
    have hstep : buildSeqAux C (n + 1) = updateAssoc (buildSeqAux C n) (win3 C n) n := by
      rw [buildSeqAux, List.range_succ, List.foldl_append]
      rfl
    obtain ⟨hkeys, hents⟩ := updateAssoc_spec (win3 C n) n (buildSeqAux C n) hnod
    refine ⟨?_, ?_, ?_⟩
    · rw [hstep, hkeys]
      by_cases hs : win3 C n ∈ (buildSeqAux C n).map Prod.fst
      · rw [if_pos hs]
        exact hnod
      · rw [if_neg hs, List.nodup_append]
        refine ⟨hnod, List.nodup_singleton _, fun a ha hb => ?_⟩
        rw [List.mem_singleton] at hb
        subst hb
        exact hs ha
    · intro kv hkv
      rw [hstep] at hkv
      have hfe : ∀ t : List Char,
          (List.range (n + 1)).filter (fun i => decide (win3 C i = t)) =
          (List.range n).filter (fun i => decide (win3 C i = t)) ++
            (if win3 C n = t then [n] else []) := by
        intro t
        rw [List.range_succ, List.filter_append]
        congr 1
        by_cases h : win3 C n = t
        · simp [h]
        · simp [h]
      rcases hents kv hkv with ⟨hne, hm⟩ | ⟨heq, hsh⟩
      · rw [hfe kv.1, if_neg (fun h => hne h.symm), List.append_nil]
        exact hval kv hm
      · have hfe2 : (List.range (n + 1)).filter
              (fun i => decide (win3 C i = win3 C n)) =
            (List.range n).filter (fun i => decide (win3 C i = win3 C n)) ++ [n] := by
          rw [hfe (win3 C n), if_pos rfl]
        rcases hsh with ⟨hnotin, rfl⟩ | ⟨v, hvin, rfl⟩
        · have hempty : (List.range n).filter
              (fun i => decide (win3 C i = win3 C n)) = [] := by
            rw [List.filter_eq_nil_iff]
            intro a ha hpa
            apply hnotin
            rw [hmem (win3 C n)]
            exact ⟨a, List.mem_range.mp ha, of_decide_eq_true hpa⟩
          show [n] = (List.range (n + 1)).filter (fun i => decide (win3 C i = win3 C n))
          rw [hfe2, hempty]
          rfl
        · have hv := hval (win3 C n, v) hvin
          show v ++ [n] =
            (List.range (n + 1)).filter (fun i => decide (win3 C i = win3 C n))
          rw [hfe2, ← hv]
    · intro s
      rw [hstep, hkeys]
      by_cases hs : win3 C n ∈ (buildSeqAux C n).map Prod.fst
      · rw [if_pos hs, hmem s]
        constructor
        · rintro ⟨a, hia, hwa⟩
          exact ⟨a, by omega, hwa⟩
        · rintro ⟨a, hia, hwa⟩
          by_cases hin : a < n
          · exact ⟨a, hin, hwa⟩
          · have haeq : a = n := by omega
            rcases (hmem (win3 C n)).mp hs with ⟨j, hj, hw⟩
            refine ⟨j, hj, ?_⟩
            rw [hw, ← haeq, hwa]
      · rw [if_neg hs, List.mem_append, List.mem_singleton, hmem s]
        constructor
        · rintro (⟨a, hia, hwa⟩ | rfl)
          · exact ⟨a, by omega, hwa⟩
          · exact ⟨n, by omega, rfl⟩
        · rintro ⟨a, hia, hwa⟩
          by_cases hin : a < n
          · exact Or.inl ⟨a, hin, hwa⟩
          · have haeq : a = n := by omega
            refine Or.inr ?_
            rw [← hwa, haeq]

theorem buildSequences_eq (C : List Char) :
    buildSequences C = buildSeqAux C (C.length - 2) := rfl

theorem pairDistances_mem :
    ∀ (ps : List Nat), ps.Pairwise (· < ·) →
      ∀ d ∈ pairDistances ps, ∃ p q, p ∈ ps ∧ q ∈ ps ∧ p < q ∧ d = q - p := by
  intro ps
  induction ps with
  | nil => intro _ d hd; simp [pairDistances] at hd
  | cons p rest ih =>
    intro hpw d hd
    simp only [pairDistances, List.mem_append, List.mem_map] at hd
    rcases hd with ⟨q, hq, rfl⟩ | hd
    · exact ⟨p, q, List.mem_cons_self _ _, List.mem_cons_of_mem _ hq,
        (List.pairwise_cons.mp hpw).1 q hq, rfl⟩
    · obtain ⟨a, b, ha, hb, hab, rfl⟩ := ih (List.pairwise_cons.mp hpw).2 d hd
      exact ⟨a, b, List.mem_cons_of_mem _ ha, List.mem_cons_of_mem _ hb, hab, rfl⟩

/-! ### Kasiski examination: the factor-votes Counter -/

/-! ### Basic table lemmas -/

theorem filterMap_id_replicate_none (n : Nat) :
    (List.replicate n (none : Option Nat)).filterMap id = [] := by
  induction n with
  | zero => rfl
  | succ m ih => rw [List.replicate_succ, List.filterMap_cons]; exact ih

theorem len_filterMap_id (t : List (Option Nat)) :
    (t.filterMap id).length + t.countP (fun o => o.isNone) = t.length := by
  induction t with
  | nil => rfl
  | cons o rest ih =>
    cases o <;> simp [List.countP_cons, List.filterMap_cons] <;> omega

theorem exists_none_slot (t : List (Option Nat))
    (h : (t.filterMap id).length < t.length) :
    ∃ e, e < t.length ∧ t.getD e none = none := by
  have hc : 0 < t.countP (fun o => o.isNone) := by
    have := len_filterMap_id t
    omega
  obtain ⟨o, ho, hno⟩ := List.countP_pos_iff.mp hc
  have : o = none := by cases o with
    | none => rfl
    | some a => simp [Option.isNone] at hno
  subst this
  obtain ⟨n, hn⟩ := List.mem_iff_get.mp ho
  refine ⟨n.1, n.2, ?_⟩
  rw [List.getD_eq_getElem?_getD, List.getElem?_eq_getElem n.2]
  simp [← hn, List.get_eq_getElem]

theorem set_filterMap_perm (v : Nat) :
    ∀ (t : List (Option Nat)) (j : Nat), j < t.length → t.getD j none = none →
      ((t.set j (some v)).filterMap id).Perm (v :: t.filterMap id) := by
  intro t
  induction t with
  | nil => intro j hj; simp at hj
  | cons o rest ih =>
    intro j hj hnone
    cases j with
    | zero =>
      have : o = none := by simpa [List.getD] using hnone
      subst this
      simp [List.set, List.filterMap_cons]
    | succ m =>
      have hm : m < rest.length := by simpa using hj
      have hn : rest.getD m none = none := by simpa [List.getD] using hnone
      have := ih m hm hn
      cases o with
      | none =>
        simpa [List.set, List.filterMap_cons] using this
      | some a =>
        simp only [List.set, List.filterMap_cons, id]
        exact (this.cons a).trans (List.Perm.swap v a _)

/-! ### Scan lemmas -/

theorem scanAdd_sound (t : List (Option Nat)) (key : Nat) :
    ∀ cand j, scanAdd t key cand = some j →
      j ∈ cand ∧ (t.getD j none = none ∨ t.getD j none = some key) := by
  intro cand
  induction cand with
  | nil => intro j h; simp [scanAdd] at h
  | cons c rest ih =>
    intro j h
    rw [scanAdd] at h
    split at h
    · obtain rfl : c = j := by simpa using h
      exact ⟨List.mem_cons_self _ _, Or.inl (by assumption)⟩
    · rename_i k hc
      by_cases hk : k = key
      · rw [if_pos hk] at h
        obtain rfl : c = j := by simpa using h
        exact ⟨List.mem_cons_self _ _, Or.inr (hk ▸ hc)⟩
      · rw [if_neg hk] at h
        obtain ⟨h1, h2⟩ := ih j h
        exact ⟨List.mem_cons_of_mem _ h1, h2⟩

theorem scanAdd_none (t : List (Option Nat)) (key : Nat) :
    ∀ cand, scanAdd t key cand = none →
      ∀ j ∈ cand, ∃ k, t.getD j none = some k ∧ k ≠ key := by
  intro cand
  induction cand with
  | nil => intro _ j hj; simp at hj
  | cons c rest ih =>
    intro h j hj
    rw [scanAdd] at h
    split at h
    · simp at h
    · rename_i k hc
      by_cases hk : k = key
      · rw [if_pos hk] at h; simp at h
      · rw [if_neg hk] at h
        rcases List.mem_cons.mp hj with rfl | hj
        · exact ⟨k, hc, hk⟩
        · exact ih h j hj

theorem scanClean_sound (t : List (Option Nat)) :
    ∀ cand j, scanClean t cand = some j → j ∈ cand ∧ t.getD j none = none := by
  intro cand
  induction cand with
  | nil => intro j h; simp [scanClean] at h
  | cons c rest ih =>
    intro j h
    rw [scanClean] at h
    split at h
    · obtain rfl : c = j := by simpa using h
      exact ⟨List.mem_cons_self _ _, by assumption⟩
    · obtain ⟨h1, h2⟩ := ih j h
      exact ⟨List.mem_cons_of_mem _ h1, h2⟩

theorem scanClean_none (t : List (Option Nat)) :
    ∀ cand, scanClean t cand = none → ∀ j ∈ cand, t.getD j none ≠ none := by
  intro cand
  induction cand with
  | nil => intro _ j hj; simp at hj
  | cons c rest ih =>
    intro h j hj
    rw [scanClean] at h
    split at h
    · simp at h
    · rename_i k hc
      rcases List.mem_cons.mp hj with rfl | hj
      · rw [hc]; simp
      · exact ih h j hj

theorem probeWindow_head (size i : Nat) : i ∈ probeWindow size i := by
  rw [probeWindow]
  split
  · exact List.mem_map.mpr ⟨0, by simp, by simp⟩
  · exact List.mem_cons_self _ _

theorem probeWindow_lt (size i : Nat) (hi : i < size) :
    ∀ j ∈ probeWindow size i, j < size := by
  intro j hj
  rw [probeWindow] at hj
  split at hj
  · obtain ⟨m, hm, rfl⟩ := List.mem_map.mp hj
    have := List.mem_range.mp hm
    omega
  · have : j = i := by simpa using hj
    omega

/-! ### Probe loop lemmas -/

theorem probeAdd_sound (t : List (Option Nat)) (key : Nat) :
    ∀ (fuel i p j : Nat), 0 < t.length → i < t.length →
      probeAdd t key i p fuel = some j →
      j < t.length ∧ (t.getD j none = none ∨ t.getD j none = some key) := by
  intro fuel
  induction fuel with
  | zero => intro i p j _ _ h; simp [probeAdd] at h
  | succ f ih =>
    intro i p j hlen hi h
    rw [probeAdd] at h
    split at h
    · rename_i j' hscan
      obtain rfl : j' = j := by simpa using h
      obtain ⟨h1, h2⟩ := scanAdd_sound t key _ _ hscan
      exact ⟨probeWindow_lt _ _ hi _ h1, h2⟩
    · exact ih _ _ j hlen (Nat.mod_lt _ hlen) h

theorem probeClean_sound (t : List (Option Nat)) :
    ∀ (fuel i p j : Nat), 0 < t.length → i < t.length →
      probeClean t i p fuel = some j →
      j < t.length ∧ t.getD j none = none := by
  intro fuel
  induction fuel with
  | zero => intro i p j _ _ h; simp [probeClean] at h
  | succ f ih =>
    intro i p j hlen hi h
    rw [probeClean] at h
    split at h
    · rename_i j' hscan
      obtain rfl : j' = j := by simpa using h
      obtain ⟨h1, h2⟩ := scanClean_sound t _ _ hscan
      exact ⟨probeWindow_lt _ _ hi _ h1, h2⟩
    · exact ih _ _ j hlen (Nat.mod_lt _ hlen) h

theorem probeAdd_of_base (t : List (Option Nat)) (key e : Nat)
    (he : t.getD e none = none) :
    ∀ (fuel i p : Nat), e ∈ probeBases t.length i p fuel →
      ∃ j, probeAdd t key i p fuel = some j := by
  intro fuel
  induction fuel with
  | zero => intro i p h; simp [probeBases] at h
  | succ f ih =>
    intro i p hmem
    rw [probeAdd]
    cases hscan : scanAdd t key (probeWindow t.length i) with
    | some j => exact ⟨j, rfl⟩
    | none =>
      rw [probeBases] at hmem
      rcases List.mem_cons.mp hmem with rfl | hmem
      · obtain ⟨k, hk, _⟩ := scanAdd_none t key _ hscan e (probeWindow_head _ _)
        rw [he] at hk
        exact absurd hk (by simp)
      · exact ih _ _ hmem

theorem probeClean_of_base (t : List (Option Nat)) (e : Nat)
    (he : t.getD e none = none) :
    ∀ (fuel i p : Nat), e ∈ probeBases t.length i p fuel →
      ∃ j, probeClean t i p fuel = some j := by
  intro fuel
  induction fuel with
  | zero => intro i p h; simp [probeBases] at h
  | succ f ih =>
    intro i p hmem
    rw [probeClean]
    cases hscan : scanClean t (probeWindow t.length i) with
    | some j => exact ⟨j, rfl⟩
    | none =>
      rw [probeBases] at hmem
      rcases List.mem_cons.mp hmem with rfl | hmem
      · exact absurd he (scanClean_none t _ hscan e (probeWindow_head _ _))
      · exact ih _ _ hmem

theorem probeBases_split (size : Nat) :
    ∀ (f1 f2 i p : Nat),
      probeBases size i p (f1 + f2) =
        probeBases size i p f1 ++
          probeBases size (jumpIter size i p f1) (p / 32 ^ f1) f2 := by
  intro f1
  induction f1 with
  | zero => intro f2 i p; simp [probeBases, jumpIter]
  | succ f ih =>
    intro f2 i p
    have : f + 1 + f2 = (f + f2) + 1 := by omega
    rw [this, probeBases, probeBases, jumpIter, ih]
    have hp : p / 32 / 32 ^ f = p / 32 ^ (f + 1) := by
      rw [Nat.div_div_eq_div_mul, pow_succ]
      ring_nf
    rw [hp]
    rfl

theorem probeBases_zero_perturb (size : Nat) :
    ∀ (f i : Nat), probeBases size i 0 f = (List.range f).map (lcgIter size i) := by
  intro f
  induction f with
  | zero => intro i; simp [probeBases]
  | succ f ih =>
    intro i
    rw [probeBases, List.range_succ_eq_map, List.map_cons]
    have h0 : (0 : Nat) / 32 = 0 := rfl
    rw [h0, Nat.add_zero, ih]
    have : lcgIter size i 0 = i := rfl
    rw [this, List.map_map]
    rfl

theorem div_32_pow_self (p : Nat) : p / 32 ^ p = 0 :=
  Nat.div_eq_of_lt (Nat.lt_pow_self (by norm_num) p)

theorem probeBases_prefix_mem (size e : Nat) :
    ∀ (f1 f2 i p : Nat), e ∈ probeBases size i p f1 → f1 ≤ f2 →
      e ∈ probeBases size i p f2 := by
  intro f1 f2 i p hmem hle
  obtain ⟨d, rfl⟩ := Nat.exists_eq_add_of_le hle
  rw [probeBases_split]
  exact List.mem_append_left _ hmem

/-! ### The jump `i ↦ (5*i + 1) % 2^k` cycles through every slot -/

theorem five_pow_two_pow (j : Nat) :
    ∃ u, 5 ^ 2 ^ j = 1 + 2 ^ (j + 2) * u ∧ u % 2 = 1 := by
  induction j with
  | zero => exact ⟨1, by norm_num, rfl⟩
  | succ j ih =>
    obtain ⟨u, hu, hodd⟩ := ih
    refine ⟨u + 2 ^ (j + 1) * u ^ 2, ?_, ?_⟩
    · have h2 : 5 ^ 2 ^ (j + 1) = (5 ^ 2 ^ j) ^ 2 := by
        rw [← pow_mul, pow_succ]
      rw [h2, hu]
      have hexp : (j + 1) + 2 = (j + 2) + 1 := by omega
      rw [hexp]
      ring
    · rw [show 2 ^ (j + 1) * u ^ 2 = 2 * (2 ^ j * u ^ 2) by rw [pow_succ]; ring]
      omega

theorem one_add_pow_odd (a u : Nat) :
    ∀ r, ∃ w, (1 + 2 ^ (a + 2) * u) ^ r = 1 + 2 ^ (a + 2) * (r * u) + 2 ^ (a + 3) * w := by
  intro r
  induction r with
  | zero => exact ⟨0, by norm_num⟩
  | succ r ih =>
    obtain ⟨w, hw⟩ := ih
    refine ⟨w + 2 ^ (a + 1) * r * u ^ 2 + 2 ^ (a + 2) * w * u, ?_⟩
    have hQ2 : (2 : Nat) ^ (a + 2) = 2 * 2 ^ (a + 1) := by rw [pow_succ]; ring
    have hQ3 : (2 : Nat) ^ (a + 3) = 4 * 2 ^ (a + 1) := by
      rw [show a + 3 = (a + 1) + 2 by omega, pow_add]
      ring
    rw [pow_succ, hw, hQ2, hQ3]
    ring

theorem five_pow_not_one (k m : Nat) (hm : 0 < m) (hmk : m < 2 ^ k) :
    5 ^ m % 2 ^ (k + 2) ≠ 1 := by
  obtain ⟨a, r, hr2, hmar⟩ := Nat.exists_eq_pow_mul_and_not_dvd
    (by omega : m ≠ 0) 2 (by norm_num)
  have hrodd : r % 2 = 1 := Nat.not_even_iff.mp (fun h => hr2 h.two_dvd)
  have hak : a < k := by
    by_contra hge
    push_neg at hge
    have h1 : 2 ^ k ≤ 2 ^ a := Nat.pow_le_pow_right (by norm_num) hge
    have h2 : 2 ^ a ≤ 2 ^ a * r := Nat.le_mul_of_pos_right _ (by omega)
    omega
  obtain ⟨u, hu, huodd⟩ := five_pow_two_pow a
  obtain ⟨w, hw⟩ := one_add_pow_odd a u r
  have h5m : 5 ^ m = 1 + 2 ^ (a + 2) * (r * u) + 2 ^ (a + 3) * w := by
    rw [hmar, pow_mul, hu, hw]
  intro hcon
  have hdvd : 2 ^ (a + 3) ∣ 2 ^ (k + 2) := pow_dvd_pow 2 (by omega)
  have h1 : 5 ^ m % 2 ^ (a + 3) = 1 := by
    rw [← Nat.mod_mod_of_dvd (5 ^ m) hdvd, hcon]
    exact Nat.mod_eq_of_lt (Nat.one_lt_two_pow_iff.mpr (by omega))
  have hru : r * u % 2 = 1 := Nat.odd_mul_odd hrodd huodd
  have hX : (1 + 2 ^ (a + 2) * (r * u) + 2 ^ (a + 3) * w) % 2 ^ (a + 3) =
      1 + 2 ^ (a + 2) := by
    obtain ⟨v, hv⟩ : ∃ v, r * u = 2 * v + 1 := ⟨r * u / 2, by omega⟩
    have h6 : 1 + 2 ^ (a + 2) * (r * u) + 2 ^ (a + 3) * w =
        (1 + 2 ^ (a + 2)) + 2 ^ (a + 3) * (v + w) := by
      rw [hv, show (2 : Nat) ^ (a + 3) = 2 * 2 ^ (a + 2) by rw [pow_succ]; ring]
      ring
    rw [h6, Nat.add_mul_mod_self_left]
    have h11 : 1 < 2 ^ (a + 2) := Nat.one_lt_two_pow_iff.mpr (by omega)
    have h23 : (2 : Nat) ^ (a + 3) = 2 ^ (a + 2) + 2 ^ (a + 2) := by
      rw [pow_succ]
      ring
    apply Nat.mod_eq_of_lt
    linarith
  rw [← h5m, h1] at hX
  have hpos : 0 < (2 : Nat) ^ (a + 2) := by positivity
  omega


theorem lcg_lt (size : Nat) (hs : 0 < size) :
    ∀ (t i : Nat), i < size → lcgIter size i t < size := by
  intro t
  induction t with
  | zero => intro i hi; exact hi
  | succ t ih => intro i hi; exact ih _ (Nat.mod_lt _ hs)

theorem lcg_step_mod (k i : Nat) :
    4 * ((i * 5 + 1) % 2 ^ k) + 1 ≡ 5 * (4 * i + 1) [MOD 2 ^ (k + 2)] := by
  have h1 : (i * 5 + 1) % 2 ^ k ≡ i * 5 + 1 [MOD 2 ^ k] := Nat.mod_modEq _ _
  have h2 := h1.mul_left' (c := 4)
  have hmod : 4 * 2 ^ k = 2 ^ (k + 2) := by
    rw [pow_add]
    ring
  rw [hmod] at h2
  have h3 := h2.add_right 1
  have h4 : 4 * (i * 5 + 1) + 1 = 5 * (4 * i + 1) := by ring
  rw [h4] at h3
  exact h3

theorem lcg_iter_mod (k : Nat) :
    ∀ (t i : Nat), i < 2 ^ k →
      4 * lcgIter (2 ^ k) i t + 1 ≡ 5 ^ t * (4 * i + 1) [MOD 2 ^ (k + 2)] := by
  intro t
  induction t with
  | zero =>
    intro i hi
    rw [pow_zero, one_mul]
    rfl
  | succ t ih =>
    intro i hi
    have hpos : 0 < 2 ^ k := by positivity
    have hstep := (lcg_step_mod k i).mul_left (5 ^ t)
    have hiter := ih ((i * 5 + 1) % 2 ^ k) (Nat.mod_lt _ hpos)
    have htr := hiter.trans hstep
    have h5 : 5 ^ t * (5 * (4 * i + 1)) = 5 ^ (t + 1) * (4 * i + 1) := by
      rw [pow_succ]
      ring
    rw [h5] at htr
    exact htr

theorem lcg_inj (k i : Nat) (hi : i < 2 ^ k) (s t : Nat) (hst : s < t) (ht : t < 2 ^ k)
    (heq : lcgIter (2 ^ k) i s = lcgIter (2 ^ k) i t) : False := by
  have hs := lcg_iter_mod k s i hi
  have htm := lcg_iter_mod k t i hi
  rw [heq] at hs
  have h1 : 5 ^ s * (4 * i + 1) ≡ 5 ^ t * (4 * i + 1) [MOD 2 ^ (k + 2)] :=
    hs.symm.trans htm
  have hpow : 5 ^ s * 5 ^ (t - s) = 5 ^ t := by
    rw [← pow_add]
    congr 1
    omega
  have h2 : 5 ^ s * (4 * i + 1) ≡ 5 ^ s * (5 ^ (t - s) * (4 * i + 1))
      [MOD 2 ^ (k + 2)] := by
    have heqm : 5 ^ s * (5 ^ (t - s) * (4 * i + 1)) = 5 ^ t * (4 * i + 1) := by
      rw [← mul_assoc, hpow]
    rw [heqm]
    exact h1
  have hcop5 : Nat.Coprime (2 ^ (k + 2)) (5 ^ s) :=
    (Nat.Coprime.pow s (k + 2) (by decide : Nat.Coprime 5 2)).symm
  have h3 : 4 * i + 1 ≡ 5 ^ (t - s) * (4 * i + 1) [MOD 2 ^ (k + 2)] :=
    (Nat.ModEq.cancel_left_of_coprime hcop5) h2
  have hu2 : Nat.Coprime (4 * i + 1) 2 := by
    rw [Nat.coprime_comm, Nat.Prime.coprime_iff_not_dvd Nat.prime_two]
    rintro ⟨c, hc⟩
    omega
  have hcopu : Nat.Coprime (2 ^ (k + 2)) (4 * i + 1) :=
    (Nat.Coprime.pow_right (k + 2) hu2).symm
  have h4 : (4 * i + 1) * 1 ≡ (4 * i + 1) * 5 ^ (t - s) [MOD 2 ^ (k + 2)] := by
    calc (4 * i + 1) * 1 = 4 * i + 1 := by ring
    _ ≡ 5 ^ (t - s) * (4 * i + 1) [MOD 2 ^ (k + 2)] := h3
    _ = (4 * i + 1) * 5 ^ (t - s) := by ring
  have h5 : 1 ≡ 5 ^ (t - s) [MOD 2 ^ (k + 2)] :=
    (Nat.ModEq.cancel_left_of_coprime hcopu) h4
  have h6 : 5 ^ (t - s) % 2 ^ (k + 2) = 1 := by
    have := h5.symm
    rw [Nat.ModEq] at this
    rw [this]
    exact Nat.mod_eq_of_lt (Nat.one_lt_two_pow_iff.mpr (by omega))
  exact five_pow_not_one k (t - s) (by omega) (by omega) h6

theorem lcg_surj (k i : Nat) (hi : i < 2 ^ k) (e : Nat) (he : e < 2 ^ k) :
    ∃ t, t < 2 ^ k ∧ lcgIter (2 ^ k) i t = e := by
  have hpos : 0 < 2 ^ k := by positivity
  let F : Fin (2 ^ k) → Fin (2 ^ k) :=
    fun t => ⟨lcgIter (2 ^ k) i t.1, lcg_lt _ hpos t.1 i hi⟩
  have Finj : Function.Injective F := by
    intro s t h
    have hv : lcgIter (2 ^ k) i s.1 = lcgIter (2 ^ k) i t.1 := congrArg Fin.val h
    rcases Nat.lt_trichotomy s.1 t.1 with hlt | heq | hgt
    · exact absurd hv (fun hv => lcg_inj k i hi s.1 t.1 hlt t.2 hv)
    · exact Fin.ext heq
    · exact absurd hv.symm (fun hv => lcg_inj k i hi t.1 s.1 hgt s.2 hv)
  have Fsurj : Function.Surjective F := Finite.injective_iff_surjective.mp Finj
  obtain ⟨t, ht⟩ := Fsurj ⟨e, he⟩
  exact ⟨t.1, t.2, congrArg Fin.val ht⟩

theorem jumpIter_lt (size : Nat) (hs : 0 < size) :
    ∀ (f i p : Nat), i < size → jumpIter size i p f < size := by
  intro f
  induction f with
  | zero => intro i p hi; exact hi
  | succ f ih => intro i p hi; exact ih _ _ (Nat.mod_lt _ hs)

theorem probeBases_covers (k i p e : Nat) (hi : i < 2 ^ k) (he : e < 2 ^ k) :
    e ∈ probeBases (2 ^ k) i p (p + 2 ^ k) := by
  have hpos : 0 < 2 ^ k := by positivity
  rw [probeBases_split]
  apply List.mem_append_right
  rw [div_32_pow_self, probeBases_zero_perturb]
  obtain ⟨t, ht, hlcg⟩ := lcg_surj k (jumpIter (2 ^ k) i p p)
    (jumpIter_lt _ hpos p i p hi) e he
  exact List.mem_map.mpr ⟨t, List.mem_range.mpr ht, hlcg⟩

theorem probeAdd_succeeds (t : List (Option Nat)) (key : Nat)
    (hG : GoodTable t) (hfree : (t.filterMap id).length < t.length) :
    ∃ j, probeAdd t key (pyHash key % t.length) (pyHash key)
        (pyHash key + t.length + 1) = some j ∧
      j < t.length ∧ (t.getD j none = none ∨ t.getD j none = some key) := by
  obtain ⟨k, hk3, hk⟩ := hG
  have hpos : 0 < t.length := by rw [hk]; positivity
  obtain ⟨e, he, hnone⟩ := exists_none_slot t hfree
  have hbase : e ∈ probeBases t.length (pyHash key % t.length) (pyHash key)
      (pyHash key + t.length) := by
    rw [hk] at he ⊢
    exact probeBases_covers k _ _ e (hk ▸ Nat.mod_lt _ hpos) he
  have hbase2 : e ∈ probeBases t.length (pyHash key % t.length) (pyHash key)
      (pyHash key + t.length + 1) :=
    probeBases_prefix_mem _ e _ _ _ _ hbase (by omega)
  obtain ⟨j, hj⟩ := probeAdd_of_base t key e hnone _ _ _ hbase2
  obtain ⟨h1, h2⟩ := probeAdd_sound t key _ _ _ j hpos (Nat.mod_lt _ hpos) hj
  exact ⟨j, hj, h1, h2⟩

theorem probeClean_succeeds (t : List (Option Nat)) (key : Nat)
    (hG : GoodTable t) (hfree : (t.filterMap id).length < t.length) :
    ∃ j, probeClean t (pyHash key % t.length) (pyHash key)
        (pyHash key + t.length + 1) = some j ∧
      j < t.length ∧ t.getD j none = none := by
  obtain ⟨k, hk3, hk⟩ := hG
  have hpos : 0 < t.length := by rw [hk]; positivity
  obtain ⟨e, he, hnone⟩ := exists_none_slot t hfree
  have hbase : e ∈ probeBases t.length (pyHash key % t.length) (pyHash key)
      (pyHash key + t.length) := by
    rw [hk] at he ⊢
    exact probeBases_covers k _ _ e (hk ▸ Nat.mod_lt _ hpos) he
  have hbase2 : e ∈ probeBases t.length (pyHash key % t.length) (pyHash key)
      (pyHash key + t.length + 1) :=
    probeBases_prefix_mem _ e _ _ _ _ hbase (by omega)
  obtain ⟨j, hj⟩ := probeClean_of_base t e hnone _ _ _ hbase2
  obtain ⟨h1, h2⟩ := probeClean_sound t _ _ _ j hpos (Nat.mod_lt _ hpos) hj
  exact ⟨j, hj, h1, h2⟩

/-! ### Specifications of insert, resize, add -/

theorem setInsertClean_spec (t : List (Option Nat)) (key : Nat)
    (hG : GoodTable t) (hfree : (t.filterMap id).length < t.length) :
    ((setInsertClean t key).filterMap id).Perm (key :: t.filterMap id) ∧
      (setInsertClean t key).length = t.length := by
  obtain ⟨j, hj, hjlt, hjnone⟩ := probeClean_succeeds t key hG hfree
  rw [setInsertClean, hj]
  exact ⟨set_filterMap_perm key t j hjlt hjnone, List.length_set t j _ ▸ rfl⟩

theorem foldl_clean_spec :
    ∀ (ys : List Nat) (t : List (Option Nat)), GoodTable t →
      (t.filterMap id).length + ys.length < t.length →
      ((ys.foldl setInsertClean t).filterMap id).Perm (t.filterMap id ++ ys) ∧
        (ys.foldl setInsertClean t).length = t.length := by
  intro ys
  induction ys with
  | nil => intro t _ _; simp
  | cons y ys ih =>
    intro t hG hroom
    have hfree : (t.filterMap id).length < t.length := by
      have := List.length_cons y ys
      omega
    obtain ⟨hperm, hlen⟩ := setInsertClean_spec t y hG hfree
    have hG' : GoodTable (setInsertClean t y) := by
      obtain ⟨k, hk3, hk⟩ := hG
      exact ⟨k, hk3, hlen ▸ hk⟩
    have hroom' : ((setInsertClean t y).filterMap id).length + ys.length <
        (setInsertClean t y).length := by
      have h1 := hperm.length_eq
      rw [List.length_cons] at h1
      rw [hlen, h1]
      have := List.length_cons y ys
      omega
    obtain ⟨hperm2, hlen2⟩ := ih (setInsertClean t y) hG' hroom'
    refine ⟨?_, by rw [List.foldl_cons, hlen2, hlen]⟩
    rw [List.foldl_cons]
    refine hperm2.trans ?_
    refine (hperm.append_right ys).trans ?_
    exact List.perm_middle.symm

theorem growSize_spec (m : Nat) :
    ∀ (f s : Nat), m < s * 2 ^ f → (∃ e, 3 ≤ e ∧ s = 2 ^ e) →
      ∃ e2, 3 ≤ e2 ∧ growSize m s f = 2 ^ e2 ∧ m < growSize m s f := by
  intro f
  induction f with
  | zero =>
    intro s hlt he
    obtain ⟨e, he3, rfl⟩ := he
    rw [pow_zero, mul_one] at hlt
    exact ⟨e, he3, rfl, hlt⟩
  | succ f ih =>
    intro s hlt he
    obtain ⟨e, he3, rfl⟩ := he
    rw [growSize]
    by_cases hc : 2 ^ e ≤ m
    · rw [if_pos hc]
      apply ih
      · have hx : 2 * 2 ^ e * 2 ^ f = 2 ^ e * 2 ^ (f + 1) := by
          rw [pow_succ]
          ring
        rw [hx]
        exact hlt
      · exact ⟨e + 1, by omega, by rw [pow_succ]; ring⟩
    · rw [if_neg hc]
      exact ⟨e, he3, rfl, by omega⟩

theorem newSize_spec (m : Nat) :
    ∃ e, 3 ≤ e ∧ newSize m = 2 ^ e ∧ m < newSize m := by
  apply growSize_spec m (m + 1) 8
  · have h1 : m < 2 ^ (m + 1) :=
      lt_of_lt_of_le (Nat.lt_two_pow m) (Nat.pow_le_pow_right (by norm_num) (by omega))
    have h2 : 2 ^ (m + 1) ≤ 8 * 2 ^ (m + 1) := Nat.le_mul_of_pos_left _ (by norm_num)
    omega
  · exact ⟨3, le_refl 3, by norm_num⟩

theorem setResize_spec (t : List (Option Nat)) (minused : Nat)
    (hm : 2 * (t.filterMap id).length ≤ minused) :
    ((setResize t minused).filterMap id).Perm (t.filterMap id) ∧
      GoodTable (setResize t minused) ∧
      ((setResize t minused).filterMap id).length < (setResize t minused).length := by
  obtain ⟨e, he3, hN, hmN⟩ := newSize_spec minused
  have hGblank : GoodTable (List.replicate (newSize minused) (none : Option Nat)) :=
    ⟨e, he3, by rw [List.length_replicate, hN]⟩
  have hroom : ((List.replicate (newSize minused) (none : Option Nat)).filterMap
      id).length + (t.filterMap id).length < (List.replicate (newSize minused)
        (none : Option Nat)).length := by
    rw [filterMap_id_replicate_none, List.length_replicate]
    simp only [List.length_nil]
    omega
  obtain ⟨hperm, hlen⟩ := foldl_clean_spec (t.filterMap id) _ hGblank hroom
  rw [setResize]
  refine ⟨?_, ?_, ?_⟩
  · refine hperm.trans ?_
    rw [filterMap_id_replicate_none, List.nil_append]
  · obtain ⟨k, hk3, hk⟩ := hGblank
    exact ⟨k, hk3, by rw [hlen]; exact hk⟩
  · rw [hlen, List.length_replicate]
    have h1 := hperm.length_eq
    rw [filterMap_id_replicate_none, List.nil_append] at h1
    omega

theorem getD_mem_filterMap (t : List (Option Nat)) (j v : Nat) (hj : j < t.length)
    (h : t.getD j none = some v) : v ∈ t.filterMap id := by
  rw [List.getD_eq_getElem?_getD, List.getElem?_eq_getElem hj] at h
  have hv : (some v) ∈ t := by
    have h2 : t[j] ∈ t := List.getElem_mem hj
    rwa [show t[j] = some v from by simpa using h] at h2
  exact List.mem_filterMap.mpr ⟨some v, hv, rfl⟩

theorem setAddEntry_spec (t : List (Option Nat)) (used key : Nat)
    (hG : GoodTable t) (hfree : (t.filterMap id).length < t.length)
    (hused : used = (t.filterMap id).length)
    (hnotin : key ∉ t.filterMap id) :
    GoodTable (setAddEntry (t, used) key).1 ∧
    ((setAddEntry (t, used) key).1.filterMap id).Perm (key :: t.filterMap id) ∧
    (setAddEntry (t, used) key).2 =
      ((setAddEntry (t, used) key).1.filterMap id).length ∧
    ((setAddEntry (t, used) key).1.filterMap id).length <
      (setAddEntry (t, used) key).1.length := by
  obtain ⟨j, hj, hjlt, hjd⟩ := probeAdd_succeeds t key hG hfree
  have hjnone : t.getD j none = none := by
    rcases hjd with h | h
    · exact h
    · exact absurd (getD_mem_filterMap t j key hjlt h) hnotin
  have h0 : setAddEntry (t, used) key =
      match probeAdd t key (pyHash key % t.length) (pyHash key)
          (pyHash key + t.length + 1) with
      | none => (t, used)
      | some jj =>
        match t.getD jj none with
        | some _ => (t, used)
        | none =>
          if (used + 1) * 5 < (t.length - 1) * 3 then (t.set jj (some key), used + 1)
          else (setResize (t.set jj (some key))
            (if 50000 < used + 1 then (used + 1) * 2 else (used + 1) * 4), used + 1) := rfl
  have h1 : setAddEntry (t, used) key =
      match t.getD j none with
      | some _ => (t, used)
      | none =>
        if (used + 1) * 5 < (t.length - 1) * 3 then (t.set j (some key), used + 1)
        else (setResize (t.set j (some key))
          (if 50000 < used + 1 then (used + 1) * 2 else (used + 1) * 4), used + 1) := by
    rw [h0, hj]
  have hEQ : setAddEntry (t, used) key =
      if (used + 1) * 5 < (t.length - 1) * 3 then (t.set j (some key), used + 1)
      else (setResize (t.set j (some key))
        (if 50000 < used + 1 then (used + 1) * 2 else (used + 1) * 4), used + 1) := by
    rw [h1, hjnone]
  have hpermset : ((t.set j (some key)).filterMap id).Perm (key :: t.filterMap id) :=
    set_filterMap_perm key t j hjlt hjnone
  have hlenset : ((t.set j (some key)).filterMap id).length =
      (t.filterMap id).length + 1 := by
    rw [hpermset.length_eq, List.length_cons]
  by_cases hc : (used + 1) * 5 < (t.length - 1) * 3
  · rw [hEQ, if_pos hc]
    obtain ⟨k, hk3, hk⟩ := hG
    refine ⟨⟨k, hk3, by rw [List.length_set]; exact hk⟩, hpermset, ?_, ?_⟩
    · rw [hlenset, hused]
    · rw [List.length_set, hlenset]
      omega
  · rw [hEQ, if_neg hc]
    have hm : 2 * ((t.set j (some key)).filterMap id).length ≤
        (if 50000 < used + 1 then (used + 1) * 2 else (used + 1) * 4) := by
      rw [hlenset, ← hused]
      split <;> omega
    obtain ⟨hperm2, hG2, hfree2⟩ := setResize_spec (t.set j (some key)) _ hm
    refine ⟨hG2, hperm2.trans hpermset, ?_, hfree2⟩
    rw [hperm2.length_eq, hlenset, hused]

theorem pySetFold_spec :
    ∀ (lst : List Nat) (t : List (Option Nat)) (used : Nat),
      GoodTable t → (t.filterMap id).length < t.length →
      used = (t.filterMap id).length →
      (∀ x ∈ lst, x ∉ t.filterMap id) → lst.Nodup →
      ((lst.foldl setAddEntry (t, used)).1.filterMap id).Perm
        (t.filterMap id ++ lst) := by
  intro lst
  induction lst with
  | nil =>
    intro t used _ _ _ _ _
    simp
  | cons x lst ih =>
    intro t used hG hfree hused hnotin hnd
    rw [List.foldl_cons]
    obtain ⟨hG1, hperm1, hused1, hfree1⟩ :=
      setAddEntry_spec t used x hG hfree hused (hnotin x (List.mem_cons_self x lst))
    have hx : setAddEntry (t, used) x =
        ((setAddEntry (t, used) x).1, (setAddEntry (t, used) x).2) := rfl
    rw [hx]
    have hnotin2 : ∀ y ∈ lst, y ∉ (setAddEntry (t, used) x).1.filterMap id := by
      intro y hy hmem
      rcases List.mem_cons.mp (hperm1.subset hmem) with rfl | hmem2
      · exact (List.nodup_cons.mp hnd).1 hy
      · exact hnotin y (List.mem_cons_of_mem x hy) hmem2
    have hrec := ih (setAddEntry (t, used) x).1 (setAddEntry (t, used) x).2
      hG1 hfree1 hused1 hnotin2 (List.nodup_cons.mp hnd).2
    refine hrec.trans ?_
    refine (hperm1.append_right lst).trans ?_
    exact List.perm_middle.symm

theorem pySetElems_perm (lst : List Nat) (hnd : lst.Nodup) :
    (pySetElems lst).Perm lst := by
  have hG : GoodTable (List.replicate 8 (none : Option Nat)) :=
    ⟨3, le_refl 3, by rw [List.length_replicate]; norm_num⟩
  have hfree : ((List.replicate 8 (none : Option Nat)).filterMap id).length <
      (List.replicate 8 (none : Option Nat)).length := by
    rw [filterMap_id_replicate_none, List.length_replicate]
    norm_num
  have hused : (0 : Nat) =
      ((List.replicate 8 (none : Option Nat)).filterMap id).length := by
    rw [filterMap_id_replicate_none]
    rfl
  have hnotin : ∀ x ∈ lst,
      x ∉ (List.replicate 8 (none : Option Nat)).filterMap id := by
    intro x _ hmem
    rw [filterMap_id_replicate_none] at hmem
    exact List.not_mem_nil x hmem
  have h := pySetFold_spec lst (List.replicate 8 none) 0 hG hfree hused hnotin hnd
  rw [filterMap_id_replicate_none, List.nil_append] at h
  exact h

theorem get_factors_perm (n M : Nat) :
    (get_factors n M).Perm ((List.range' 2 (M - 1)).filter (fun f => n % f = 0)) :=
  pySetElems_perm _ (List.Nodup.filter _ (List.nodup_range' 2 (M - 1)))

theorem mem_get_factors (n M f : Nat) :
    f ∈ get_factors n M ↔ 2 ≤ f ∧ f ≤ M ∧ n % f = 0 := by
  rw [(get_factors_perm n M).mem_iff, List.mem_filter, List.mem_range']
  constructor
  · rintro ⟨⟨i, hi, rfl⟩, h2⟩
    refine ⟨by omega, by omega, by simpa using h2⟩
  · rintro ⟨h1, h2, h3⟩
    exact ⟨⟨f - 2, by omega, by omega⟩, by simpa using h3⟩

theorem nodup_get_factors (n M : Nat) : (get_factors n M).Nodup :=
  ((get_factors_perm n M).nodup_iff).mpr ((List.nodup_range' 2 (M - 1)).filter _)

theorem countOf_bump (g f : Nat) :
    ∀ m : List (Nat × Nat),
      countOf (bumpCounter m g) f = countOf m f + if f = g then 1 else 0 := by
  intro m
  induction m with
  | nil =>
    simp only [bumpCounter, countOf]
    by_cases h : g = f
    · rw [if_pos h, if_pos h.symm]
    · rw [if_neg h, if_neg (fun hh => h hh.symm)]
  | cons kv rest ih =>
    by_cases hk : kv.1 = g
    · have hred : bumpCounter (kv :: rest) g = (kv.1, kv.2 + 1) :: rest := by
        simp [bumpCounter, hk]
      rw [hred]
      by_cases hf : kv.1 = f
      · simp only [countOf, if_pos hf]
        rw [if_pos (by rw [← hf, hk])]
      · simp only [countOf, if_neg hf]
        rw [if_neg (fun h => hf (by rw [hk, h]))]
        omega
    · have hred : bumpCounter (kv :: rest) g = kv :: bumpCounter rest g := by
        simp [bumpCounter, hk]
      rw [hred]
      by_cases hf : kv.1 = f
      · simp only [countOf, if_pos hf]
        rw [if_neg (fun h => hk (by rw [hf, h]))]
        omega
      · simp only [countOf, if_neg hf]
        exact ih

theorem keys_bump (g : Nat) :
    ∀ m : List (Nat × Nat),
      (bumpCounter m g).map Prod.fst =
        if g ∈ m.map Prod.fst then m.map Prod.fst else m.map Prod.fst ++ [g] := by
  intro m
  induction m with
  | nil => simp [bumpCounter]
  | cons kv rest ih =>
    by_cases hk : kv.1 = g
    · have hred : bumpCounter (kv :: rest) g = (kv.1, kv.2 + 1) :: rest := by
        simp [bumpCounter, hk]
      rw [hred, List.map_cons, List.map_cons,
        if_pos (by rw [← hk]; exact List.mem_cons_self _ _)]
    · have hred : bumpCounter (kv :: rest) g = kv :: bumpCounter rest g := by
        simp [bumpCounter, hk]
      rw [hred, List.map_cons, ih, List.map_cons]
      by_cases hg : g ∈ rest.map Prod.fst
      · rw [if_pos hg, if_pos (List.mem_cons_of_mem _ hg)]
      · rw [if_neg hg, if_neg (by
          intro h
          rcases List.mem_cons.mp h with h | h
          · exact hk h.symm
          · exact hg h)]
        rfl

theorem countOf_foldl_bump (f : Nat) :
    ∀ (fs : List Nat) (m : List (Nat × Nat)),
      countOf (fs.foldl bumpCounter m) f = countOf m f + fs.count f := by
  intro fs
  induction fs with
  | nil => intro m; simp
  | cons a fs ih =>
    intro m
    rw [List.foldl_cons, ih (bumpCounter m a), countOf_bump a f m, List.count_cons]
    simp only [beq_iff_eq]
    by_cases h : f = a
    · rw [if_pos h, if_pos h.symm]
      omega
    · rw [if_neg h, if_neg (Ne.symm h)]
      omega

theorem keys_foldl_bump_mem (f : Nat) :
    ∀ (fs : List Nat) (m : List (Nat × Nat)),
      f ∈ (fs.foldl bumpCounter m).map Prod.fst ↔ f ∈ m.map Prod.fst ∨ f ∈ fs := by
  intro fs
  induction fs with
  | nil => intro m; simp
  | cons a fs ih =>
    intro m
    rw [List.foldl_cons, ih (bumpCounter m a), keys_bump]
    by_cases hg : a ∈ m.map Prod.fst
    · rw [if_pos hg]
      constructor
      · rintro (h | h)
        · exact Or.inl h
        · exact Or.inr (List.mem_cons_of_mem a h)
      · rintro (h | h)
        · exact Or.inl h
        · rcases List.mem_cons.mp h with rfl | h
          · exact Or.inl hg
          · exact Or.inr h
    · rw [if_neg hg]
      constructor
      · rintro (h | h)
        · rcases List.mem_append.mp h with h | h
          · exact Or.inl h
          · rw [List.mem_singleton] at h
            exact Or.inr (h ▸ List.mem_cons_self a fs)
        · exact Or.inr (List.mem_cons_of_mem a h)
      · rintro (h | h)
        · exact Or.inl (List.mem_append_left _ h)
        · rcases List.mem_cons.mp h with rfl | h
          · exact Or.inl (List.mem_append_right _ (List.mem_singleton_self f))
          · exact Or.inr h

theorem keys_foldl_bump_nodup :
    ∀ (fs : List Nat) (m : List (Nat × Nat)), (m.map Prod.fst).Nodup →
      ((fs.foldl bumpCounter m).map Prod.fst).Nodup := by
  intro fs
  induction fs with
  | nil => exact fun m h => h
  | cons a fs ih =>
    intro m hm
    rw [List.foldl_cons]
    apply ih
    rw [keys_bump]
    by_cases hg : a ∈ m.map Prod.fst
    · rw [if_pos hg]
      exact hm
    · rw [if_neg hg, List.nodup_append]
      refine ⟨hm, List.nodup_singleton _, fun x hx hb => ?_⟩
      rw [List.mem_singleton] at hb
      subst hb
      exact hg hx

theorem keys_foldl_bump_append :
    ∀ (fs : List Nat) (m : List (Nat × Nat)),
      ∃ extra, (fs.foldl bumpCounter m).map Prod.fst = m.map Prod.fst ++ extra ∧
        ∀ x ∈ extra, x ∉ m.map Prod.fst := by
  intro fs
  induction fs with
  | nil => exact fun m => ⟨[], (List.append_nil _).symm, by simp⟩
  | cons a fs ih =>
    intro m
    obtain ⟨extra, he, hf⟩ := ih (bumpCounter m a)
    rw [keys_bump] at he hf
    by_cases hg : a ∈ m.map Prod.fst
    · rw [if_pos hg] at he hf
      exact ⟨extra, by rw [List.foldl_cons, he], hf⟩
    · rw [if_neg hg] at he hf
      refine ⟨a :: extra, ?_, ?_⟩
      · rw [List.foldl_cons, he, List.append_assoc]
        rfl
      · intro x hx
        rcases List.mem_cons.mp hx with rfl | hx
        · exact hg
        · exact fun hmem => hf x hx (List.mem_append_left _ hmem)

theorem keys_foldl_bump_fresh :
    ∀ (fs : List Nat) (m : List (Nat × Nat)), fs.Nodup →
      (∀ f ∈ fs, f ∉ m.map Prod.fst) →
      (fs.foldl bumpCounter m).map Prod.fst = m.map Prod.fst ++ fs := by
  intro fs
  induction fs with
  | nil => intro m _ _; simp
  | cons a fs ih =>
    intro m hnd hfr
    rw [List.foldl_cons, ih (bumpCounter m a) (List.nodup_cons.mp hnd).2 ?_, keys_bump,
      if_neg (hfr a (List.mem_cons_self a fs)), List.append_assoc]
    · rfl
    · intro f hf
      rw [keys_bump, if_neg (hfr a (List.mem_cons_self a fs)), List.mem_append,
        List.mem_singleton]
      rintro (h | rfl)
      · exact hfr f (List.mem_cons_of_mem a hf) h
      · exact (List.nodup_cons.mp hnd).1 hf

theorem mem_countOf (f : Nat) :
    ∀ m : List (Nat × Nat), f ∈ m.map Prod.fst → (f, countOf m f) ∈ m := by
  intro m
  induction m with
  | nil => intro h; simp at h
  | cons kv rest ih =>
    intro h
    by_cases hk : kv.1 = f
    · have : (f, countOf (kv :: rest) f) = kv := by
        rw [show countOf (kv :: rest) f = kv.2 from by simp [countOf, hk], ← hk]
      rw [this]
      exact List.mem_cons_self _ _
    · have hmem : f ∈ rest.map Prod.fst := by
        rw [List.map_cons, List.mem_cons] at h
        rcases h with h1 | h1
        · exact absurd h1.symm hk
        · exact h1
      have : countOf (kv :: rest) f = countOf rest f := by simp [countOf, hk]
      rw [this]
      exact List.mem_cons_of_mem _ (ih hmem)

theorem entry_countOf :
    ∀ m : List (Nat × Nat), (m.map Prod.fst).Nodup →
      ∀ kv ∈ m, kv.2 = countOf m kv.1 := by
  intro m
  induction m with
  | nil => intro _ kv h; exact absurd h (List.not_mem_nil kv)
  | cons kv0 rest ih =>
    intro hnod kv h
    have hnod' : (rest.map Prod.fst).Nodup := (List.nodup_cons.mp (by simpa using hnod)).2
    have hk0 : kv0.1 ∉ rest.map Prod.fst := (List.nodup_cons.mp (by simpa using hnod)).1
    rcases List.mem_cons.mp h with rfl | h1
    · simp [countOf]
    · have hne : kv0.1 ≠ kv.1 := by
        intro he
        exact hk0 (he ▸ List.mem_map_of_mem Prod.fst h1)
      rw [show countOf (kv0 :: rest) kv.1 = countOf rest kv.1 from by
        simp [countOf, hne]]
      exact ih hnod' kv h1

theorem countOf_factorVotes (M : Nat) (ds : List Nat) (f : Nat) :
    countOf (factorVotes ds M) f =
      ds.countP (fun d => decide (f ∈ get_factors d M)) := by
  suffices h : ∀ (l : List Nat) (m : List (Nat × Nat)),
      countOf (l.foldl (fun mm d => (get_factors d M).foldl bumpCounter mm) m) f =
        countOf m f + l.countP (fun d => decide (f ∈ get_factors d M)) by
    have h0 := h ds []
    rw [factorVotes]
    rw [h0]
    simp [countOf]
  intro l
  induction l with
  | nil => intro m; simp
  | cons d l ih =>
    intro m
    rw [List.foldl_cons, ih, countOf_foldl_bump, List.countP_cons]
    have hcount : (get_factors d M).count f =
        if f ∈ get_factors d M then 1 else 0 := by
      by_cases h : f ∈ get_factors d M
      · rw [if_pos h, List.count_eq_one_of_mem (nodup_get_factors d M) h]
      · rw [if_neg h, List.count_eq_zero_of_not_mem h]
    rw [hcount]
    by_cases h : f ∈ get_factors d M
    · rw [if_pos h, if_pos (decide_eq_true h)]
      omega
    · rw [if_neg h, if_neg (by simpa using h)]
      omega

theorem keys_factorVotes_mem (M : Nat) (ds : List Nat) (f : Nat) :
    f ∈ (factorVotes ds M).map Prod.fst ↔ ∃ d ∈ ds, f ∈ get_factors d M := by
  suffices h : ∀ (l : List Nat) (m : List (Nat × Nat)),
      f ∈ (l.foldl (fun mm d => (get_factors d M).foldl bumpCounter mm) m).map Prod.fst ↔
        f ∈ m.map Prod.fst ∨ ∃ d ∈ l, f ∈ get_factors d M by
    rw [factorVotes, h ds []]
    simp
  intro l
  induction l with
  | nil => intro m; simp
  | cons d l ih =>
    intro m
    rw [List.foldl_cons, ih, keys_foldl_bump_mem]
    constructor
    · rintro ((h | h) | h)
      · exact Or.inl h
      · exact Or.inr ⟨d, List.mem_cons_self d l, h⟩
      · obtain ⟨d', hd', hf'⟩ := h
        exact Or.inr ⟨d', List.mem_cons_of_mem d hd', hf'⟩
    · rintro (h | ⟨d', hd', hf'⟩)
      · exact Or.inl (Or.inl h)
      · rcases List.mem_cons.mp hd' with rfl | hd''
        · exact Or.inl (Or.inr hf')
        · exact Or.inr ⟨d', hd'', hf'⟩

theorem keys_factorVotes_nodup (M : Nat) (ds : List Nat) :
    ((factorVotes ds M).map Prod.fst).Nodup := by
  suffices h : ∀ (l : List Nat) (m : List (Nat × Nat)), (m.map Prod.fst).Nodup →
      ((l.foldl (fun mm d => (get_factors d M).foldl bumpCounter mm) m).map
        Prod.fst).Nodup by
    exact h ds [] List.nodup_nil
  intro l
  induction l with
  | nil => exact fun m h => h
  | cons d l ih =>
    intro m hm
    rw [List.foldl_cons]
    exact ih _ (keys_foldl_bump_nodup _ m hm)

/-! ### Kasiski examination: the stable descending sort of most_common -/

theorem mem_insertDesc (a x : Nat × Nat) :
    ∀ m : List (Nat × Nat), x ∈ insertDesc a m ↔ x = a ∨ x ∈ m := by
  intro m
  induction m with
  | nil => simp [insertDesc]
  | cons b m ih =>
    by_cases h : b.2 > a.2
    · simp only [insertDesc, if_pos h, List.mem_cons, ih]
      tauto
    · simp only [insertDesc, if_neg h, List.mem_cons]

theorem perm_insertDesc (a : Nat × Nat) :
    ∀ m : List (Nat × Nat), (insertDesc a m).Perm (a :: m) := by
  intro m
  induction m with
  | nil => exact List.Perm.refl _
  | cons b m ih =>
    by_cases h : b.2 > a.2
    · simp only [insertDesc, if_pos h]
      exact List.Perm.trans (ih.cons b) (List.Perm.swap a b m)
    · simp only [insertDesc, if_neg h]
      exact List.Perm.refl _

theorem perm_sortDesc : ∀ m : List (Nat × Nat), (sortDesc m).Perm m := by
  intro m
  induction m with
  | nil => exact List.Perm.refl _
  | cons a m ih =>
    exact List.Perm.trans (perm_insertDesc a (sortDesc m)) (ih.cons a)

theorem insertDesc_sorted_pairwise (t : List (Nat × Nat)) (a : Nat × Nat) :
    ∀ m : List (Nat × Nat),
      m.Pairwise (fun x y => y.2 ≤ x.2) →
      m.Pairwise (fun x y => y.2 < x.2 ∨ (x.2 = y.2 ∧ [x, y].Sublist (a :: t))) →
      (∀ x ∈ m, x ∈ t) →
      (insertDesc a m).Pairwise (fun x y => y.2 ≤ x.2) ∧
      (insertDesc a m).Pairwise
        (fun x y => y.2 < x.2 ∨ (x.2 = y.2 ∧ [x, y].Sublist (a :: t))) := by
  intro m
  induction m with
  | nil =>
    intro _ _ _
    exact ⟨List.pairwise_singleton _ _, List.pairwise_singleton _ _⟩
  | cons b m ih =>
    intro hs hp hmem
    have hsb := (List.pairwise_cons.mp hs).1
    have hs' := (List.pairwise_cons.mp hs).2
    have hpb := (List.pairwise_cons.mp hp).1
    have hp' := (List.pairwise_cons.mp hp).2
    have hmem' : ∀ x ∈ m, x ∈ t := fun x hx => hmem x (List.mem_cons_of_mem b hx)
    by_cases h : b.2 > a.2
    · obtain ⟨ih1, ih2⟩ := ih hs' hp' hmem'
      simp only [insertDesc, if_pos h]
      constructor
      · refine List.pairwise_cons.mpr ⟨?_, ih1⟩
        intro y hy
        rcases (mem_insertDesc a y m).mp hy with rfl | hy'
        · exact le_of_lt h
        · exact hsb y hy'
      · refine List.pairwise_cons.mpr ⟨?_, ih2⟩
        intro y hy
        rcases (mem_insertDesc a y m).mp hy with rfl | hy'
        · exact Or.inl h
        · exact hpb y hy'
    · simp only [insertDesc, if_neg h]
      have hble : b.2 ≤ a.2 := not_lt.mp h
      constructor
      · refine List.pairwise_cons.mpr ⟨?_, hs⟩
        intro y hy
        rcases List.mem_cons.mp hy with rfl | hy'
        · exact hble
        · exact le_trans (hsb y hy') hble
      · refine List.pairwise_cons.mpr ⟨?_, hp⟩
        intro y hy
        have hyt : y ∈ t := hmem y hy
        have hyle : y.2 ≤ a.2 := by
          rcases List.mem_cons.mp hy with rfl | hy'
          · exact hble
          · exact le_trans (hsb y hy') hble
        rcases lt_or_eq_of_le hyle with hlt | heq
        · exact Or.inl hlt
        · exact Or.inr ⟨heq.symm, List.Sublist.cons₂ a ((List.singleton_sublist).mpr hyt)⟩

/-- The stable descending sort: counts are non-increasing along the output,
and an element placed before an equal-count element was earlier in the input
(stability). -/
theorem sortDesc_pairwise :
    ∀ m : List (Nat × Nat),
      (sortDesc m).Pairwise (fun x y => y.2 ≤ x.2) ∧
      (sortDesc m).Pairwise
        (fun x y => y.2 < x.2 ∨ (x.2 = y.2 ∧ [x, y].Sublist m)) := by
  intro m
  induction m with
  | nil => exact ⟨List.Pairwise.nil, List.Pairwise.nil⟩
  | cons a m ih =>
    obtain ⟨ih1, ih2⟩ := ih
    have ih2' : (sortDesc m).Pairwise
        (fun x y => y.2 < x.2 ∨ (x.2 = y.2 ∧ [x, y].Sublist (a :: m))) := by
      refine ih2.imp ?_
      rintro x y (h | ⟨h1, h2⟩)
      · exact Or.inl h
      · exact Or.inr ⟨h1, h2.cons a⟩
    have hmem : ∀ x ∈ sortDesc m, x ∈ m := fun x hx => (perm_sortDesc m).subset hx
    exact insertDesc_sorted_pairwise m a (sortDesc m) ih1 ih2' hmem

/-! ### C4: shape of the Kasiski output -/

theorem distancesOf_mem (C : List Char) :
    ∀ d ∈ distancesOf C,
      ∃ i j, i < j ∧ j < C.length - 2 ∧ win3 C i = win3 C j ∧ d = j - i := by
  intro d hd
  rw [distancesOf, List.mem_flatMap] at hd
  obtain ⟨kv, hkv, hdp⟩ := hd
  rw [repeatedSeqs, List.mem_filter] at hkv
  obtain ⟨hkvB, _⟩ := hkv
  obtain ⟨hnod, hval, hmem⟩ := buildSeqAux_inv C (C.length - 2)
  rw [buildSequences_eq] at hkvB
  have hv := hval kv hkvB
  have hpw : kv.2.Pairwise (· < ·) := by
    rw [hv]
    exact (List.pairwise_lt_range _).sublist (List.filter_sublist _)
  obtain ⟨p, q, hp, hq, hpq, rfl⟩ := pairDistances_mem kv.2 hpw d hdp
  rw [hv, List.mem_filter] at hp hq
  refine ⟨p, q, hpq, List.mem_range.mp hq.1, ?_, rfl⟩
  rw [of_decide_eq_true hp.2, of_decide_eq_true hq.2]

theorem votes_eq_countP (C : List Char) (M f : Nat) (h2 : 2 ≤ f) (hM : f ≤ M) :
    countOf (factorVotes (distancesOf C) M) f =
      (distancesOf C).countP (fun d => decide (f ∣ d)) := by
  rw [countOf_factorVotes]
  apply List.countP_congr
  intro d _
  simp only [decide_eq_true_eq, mem_get_factors]
  constructor
  · rintro ⟨_, _, h⟩
    exact Nat.dvd_of_mod_eq_zero h
  · intro h
    exact ⟨h2, hM, Nat.eq_zero_of_dvd_of_lt h |> fun _ => Nat.mod_eq_zero_of_dvd h⟩

theorem kasiski_mem_keys (C : List Char) (M : Nat) :
    ∀ f ∈ kasiski_examination C M,
      f ∈ (factorVotes (distancesOf C) M).map Prod.fst := by
  intro f hf
  rw [kasiski_examination, most_common, List.mem_map] at hf
  obtain ⟨kv, hkv, rfl⟩ := hf
  have hkvV : kv ∈ factorVotes (distancesOf C) M :=
    (perm_sortDesc _).subset ((List.take_sublist 3 _).subset hkv)
  exact List.mem_map_of_mem Prod.fst hkvV

theorem kasiski_bounds (C : List Char) (M : Nat) :
    ∀ f ∈ kasiski_examination C M,
      2 ≤ f ∧ f ≤ M ∧ ∃ d ∈ distancesOf C, f ∣ d := by
  intro f hf
  have hkey := kasiski_mem_keys C M f hf
  rw [keys_factorVotes_mem] at hkey
  obtain ⟨d, hd, hfd⟩ := hkey
  rw [mem_get_factors] at hfd
  exact ⟨hfd.1, hfd.2.1, d, hd, Nat.dvd_of_mod_eq_zero hfd.2.2⟩

/-- C4: `kasiski_examination` returns at most 3 divisors, each in
`[2, max_key_length]`, each dividing at least one pairwise distance between
occurrences of a repeated 3-letter window; the list is ordered by descending
vote count (one vote per distance the divisor evenly divides), ties broken by
first-encountered order during the factor scan (the key order of the votes
Counter); with no repeated 3-letter window the list is empty. -/
theorem kasiski_output_shape (C : List Char) (M : Nat) :
    (kasiski_examination C M).length ≤ 3 ∧
    (∀ f ∈ kasiski_examination C M, 2 ≤ f ∧ f ≤ M) ∧
    (∀ f ∈ kasiski_examination C M,
      ∃ i j, i < j ∧ j < C.length - 2 ∧ win3 C i = win3 C j ∧ f ∣ (j - i)) ∧
    (kasiski_examination C M).Pairwise (fun a b =>
      (distancesOf C).countP (fun d => decide (b ∣ d)) <
        (distancesOf C).countP (fun d => decide (a ∣ d)) ∨
      ((distancesOf C).countP (fun d => decide (a ∣ d)) =
        (distancesOf C).countP (fun d => decide (b ∣ d)) ∧
        [a, b].Sublist ((factorVotes (distancesOf C) M).map Prod.fst))) ∧
    ((∀ i j, i < j → j < C.length - 2 → win3 C i ≠ win3 C j) →
      kasiski_examination C M = []) := by
  refine ⟨?_, ?_, ?_, ?_, ?_⟩
  · rw [kasiski_examination, most_common, List.length_map, List.length_take]
    exact Nat.min_le_left 3 _
  · intro f hf
    exact ⟨(kasiski_bounds C M f hf).1, (kasiski_bounds C M f hf).2.1⟩
  · intro f hf
    obtain ⟨_, _, d, hd, hfd⟩ := kasiski_bounds C M f hf
    obtain ⟨i, j, hij, hjlen, hwin, rfl⟩ := distancesOf_mem C d hd
    exact ⟨i, j, hij, hjlen, hwin, hfd⟩
  · have hpw2 : ((sortDesc (factorVotes (distancesOf C) M)).take 3).Pairwise
        (fun x y => y.2 < x.2 ∨
          (x.2 = y.2 ∧ [x, y].Sublist (factorVotes (distancesOf C) M))) :=
      ((sortDesc_pairwise _).2).sublist (List.take_sublist 3 _)
    have hmemV : ∀ kv ∈ (sortDesc (factorVotes (distancesOf C) M)).take 3,
        kv ∈ factorVotes (distancesOf C) M :=
      fun kv h => (perm_sortDesc _).subset ((List.take_sublist 3 _).subset h)
    have hknd := keys_factorVotes_nodup M (distancesOf C)
    have hvv : ∀ kv ∈ (sortDesc (factorVotes (distancesOf C) M)).take 3,
        kv.2 = (distancesOf C).countP (fun d => decide (kv.1 ∣ d)) := by
      intro kv hkv
      have hkvV := hmemV kv hkv
      have h1 := entry_countOf _ hknd kv hkvV
      have hkey : kv.1 ∈ (factorVotes (distancesOf C) M).map Prod.fst :=
        List.mem_map_of_mem Prod.fst hkvV
      rw [keys_factorVotes_mem] at hkey
      obtain ⟨d, _, hfd⟩ := hkey
      rw [mem_get_factors] at hfd
      rw [h1, votes_eq_countP C M kv.1 hfd.1 hfd.2.1]
    rw [kasiski_examination, most_common]
    refine List.pairwise_map.mpr (List.Pairwise.imp_of_mem ?_ hpw2)
    intro x y hx hy hS
    rcases hS with h | ⟨h1, h2⟩
    · rw [← hvv x hx, ← hvv y hy]
      exact Or.inl h
    · refine Or.inr ⟨?_, ?_⟩
      · rw [← hvv x hx, ← hvv y hy]
        exact h1
      · exact List.Sublist.map Prod.fst h2
  · intro hno
    obtain ⟨hnod, hval, hmem⟩ := buildSeqAux_inv C (C.length - 2)
    have hrep : repeatedSeqs C = [] := by
      rw [repeatedSeqs, List.filter_eq_nil_iff]
      intro kv hkv
      rw [buildSequences_eq] at hkv
      have hv := hval kv hkv
      simp only [decide_eq_true_eq, not_lt]
      by_contra hlen
      push_neg at hlen
      obtain ⟨p, q, t, hps⟩ : ∃ p q t, kv.2 = p :: q :: t := by
        cases h1 : kv.2 with
        | nil => rw [h1] at hlen; simp at hlen
        | cons p rest =>
          cases h2 : rest with
          | nil => rw [h1, h2] at hlen; simp at hlen
          | cons q t => exact ⟨p, q, t, rfl⟩
      have hpmem : p ∈ kv.2 := by
        rw [hps]
        exact List.mem_cons_self _ _
      have hqmem : q ∈ kv.2 := by
        rw [hps]
        exact List.mem_cons_of_mem _ (List.mem_cons_self _ _)
      have hpq : p < q := by
        have hpw : kv.2.Pairwise (· < ·) := by
          rw [hv]
          exact (List.pairwise_lt_range _).sublist (List.filter_sublist _)
        rw [hps] at hpw
        exact (List.pairwise_cons.mp hpw).1 q (List.mem_cons_self _ _)
      rw [hv, List.mem_filter] at hpmem hqmem
      exact hno p q hpq (List.mem_range.mp hqmem.1)
        (by rw [of_decide_eq_true hpmem.2, of_decide_eq_true hqmem.2])
    rw [kasiski_examination, most_common, distancesOf, hrep]
    rfl

theorem kasiski_output_shape_witness :
    ((∀ i j, i < j → j < (['a', 'b', 'a', 'b', 'a'] : List Char).length - 2 →
        win3 ['a', 'b', 'a', 'b', 'a'] i ≠ win3 ['a', 'b', 'a', 'b', 'a'] j) →
      kasiski_examination ['a', 'b', 'a', 'b', 'a'] 15 = []) ∧
    (∀ f ∈ kasiski_examination ['a', 'b', 'a', 'b', 'a'] 15, 2 ≤ f ∧ f ≤ 15) :=
  ⟨(kasiski_output_shape ['a', 'b', 'a', 'b', 'a'] 15).2.2.2.2,
    (kasiski_output_shape ['a', 'b', 'a', 'b', 'a'] 15).2.1⟩

/-! ### C5: a period that occurs at exact multiples -/

theorem filter_eq_single {α : Type} (q : α → Bool) (a : α) :
    ∀ l : List α, l.Nodup → a ∈ l → q a = true →
      (∀ x ∈ l, q x = true → x = a) → l.filter q = [a] := by
  intro l
  induction l with
  | nil => intro _ ha; exact absurd ha (List.not_mem_nil a)
  | cons b l ih =>
    intro hnd ha hqa huniq
    have hbl : b ∉ l := (List.nodup_cons.mp hnd).1
    by_cases hb : q b = true
    · have hba : b = a := huniq b (List.mem_cons_self b l) hb
      subst hba
      rw [List.filter_cons_of_pos hb]
      have hempty : l.filter q = [] := by
        rw [List.filter_eq_nil_iff]
        intro x hx hqx
        exact hbl ((huniq x (List.mem_cons_of_mem b hx) hqx) ▸ hx)
      rw [hempty]
    · rw [List.filter_cons_of_neg (by simpa using hb)]
      have hal : a ∈ l := by
        rcases List.mem_cons.mp ha with rfl | h
        · exact absurd hqa hb
        · exact h
      exact ih (List.nodup_cons.mp hnd).2 hal hqa
        (fun x hx hqx => huniq x (List.mem_cons_of_mem b hx) hqx)

theorem pairwise_of_mem_imp {α : Type} {R : α → α → Prop} :
    ∀ l : List α, (∀ a ∈ l, ∀ b, R a b) → l.Pairwise R := by
  intro l
  induction l with
  | nil => exact fun _ => List.Pairwise.nil
  | cons a l ih =>
    intro h
    exact List.pairwise_cons.mpr
      ⟨fun b _ => h a (List.mem_cons_self a l) b,
       ih fun x hx b => h x (List.mem_cons_of_mem a hx) b⟩

theorem keys_votesFold_append (M : Nat) :
    ∀ (l : List Nat) (m : List (Nat × Nat)),
      ∃ extra,
        (l.foldl (fun mm d => (get_factors d M).foldl bumpCounter mm) m).map Prod.fst =
          m.map Prod.fst ++ extra ∧
        ∀ x ∈ extra, x ∉ m.map Prod.fst := by
  intro l
  induction l with
  | nil => exact fun m => ⟨[], (List.append_nil _).symm, by simp⟩
  | cons d l ih =>
    intro m
    obtain ⟨e1, he1, hf1⟩ := keys_foldl_bump_append (get_factors d M) m
    obtain ⟨e2, he2, hf2⟩ := ih ((get_factors d M).foldl bumpCounter m)
    refine ⟨e1 ++ e2, ?_, ?_⟩
    · rw [List.foldl_cons, he2, he1, List.append_assoc]
    · intro x hx
      rcases List.mem_append.mp hx with hx | hx
      · exact hf1 x hx
      · intro hxm
        exact hf2 x hx (by rw [he1]; exact List.mem_append_left _ hxm)

/-- C5 (amended): if a trigram `s` occurs in `C` at start offsets that are
all multiples of `P` (`2 ≤ P ≤ max_key_length`), at least twice, with no
other repeated trigram, and fewer than three divisors `f ≠ P` in
`[2, max_key_length]` divide every pairwise distance, then `P` is among the
(at most 3) candidates returned by `kasiski_examination`.  The proviso is
forced: every such divisor ties with `P` at the maximal vote count, and three
of them can fill the top 3 — whether one precedes `P` in the Counter is
decided by the set's hash-table iteration order, which does not follow size
(`get_factors 105 15 = [3, 15, 5, 7]` yields top-3 `[3, 15, 5]`, excluding
the period 7 even though only 3 and 5 are below it). -/
theorem kasiski_period_amended (C s : List Char) (P M : Nat)
    (hP2 : 2 ≤ P) (hPM : P ≤ M)
    (hocc2 : 2 ≤ (posOf C s).length)
    (hoccP : ∀ i ∈ posOf C s, P ∣ i)
    (hnorep : ∀ j, j < C.length - 2 → ∀ i, i < j →
      win3 C i = win3 C j → win3 C i = s)
    (hfew : ((List.range' 2 (M - 1)).filter
        (fun f => decide (f ≠ P) &&
          (distancesOf C).all (fun d => decide (f ∣ d)))).length ≤ 2) :
    P ∈ kasiski_examination C M := by
  obtain ⟨hnod, hval, hmem⟩ := buildSeqAux_inv C (C.length - 2)
  have hBnodup : (buildSeqAux C (C.length - 2)).Nodup := List.Nodup.of_map Prod.fst hnod
  have hsx : ∃ i0, i0 ∈ posOf C s := by
    cases hp : posOf C s with
    | nil => rw [hp] at hocc2; simp at hocc2
    | cons a t => exact ⟨a, hp ▸ List.mem_cons_self a t⟩
  obtain ⟨i0, hi0⟩ := hsx
  rw [posOf] at hi0
  have hi0' := List.mem_filter.mp hi0
  have hskeys : s ∈ (buildSeqAux C (C.length - 2)).map Prod.fst := by
    rw [hmem s]
    exact ⟨i0, List.mem_range.mp hi0'.1, of_decide_eq_true hi0'.2⟩
  obtain ⟨kv0, hkv0B, hkv0s⟩ := List.mem_map.mp hskeys
  have hkv0val : kv0.2 = posOf C s := by
    rw [hval kv0 hkv0B, posOf, hkv0s]
  have hkv0eq : kv0 = (s, posOf C s) := by
    rcases kv0 with ⟨k1, k2⟩
    simp only at hkv0s hkv0val
    rw [hkv0s, hkv0val]
  have htwo : ∀ kv : List Char × List Nat, kv ∈ buildSeqAux C (C.length - 2) →
      1 < kv.2.length → kv = (s, posOf C s) := by
    intro kv hkv hlen
    have hv := hval kv hkv
    obtain ⟨p, q, t, hps⟩ : ∃ p q t, kv.2 = p :: q :: t := by
      cases h1 : kv.2 with
      | nil => rw [h1] at hlen; simp at hlen
      | cons p rest =>
        cases h2 : rest with
        | nil => rw [h1, h2] at hlen; simp at hlen
        | cons q t => exact ⟨p, q, t, rfl⟩
    have hpmem : p ∈ kv.2 := by rw [hps]; exact List.mem_cons_self _ _
    have hqmem : q ∈ kv.2 := by
      rw [hps]
      exact List.mem_cons_of_mem _ (List.mem_cons_self _ _)
    have hpq : p < q := by
      have hpw : kv.2.Pairwise (· < ·) := by
        rw [hv]
        exact (List.pairwise_lt_range _).sublist (List.filter_sublist _)
      rw [hps] at hpw
      exact (List.pairwise_cons.mp hpw).1 q (List.mem_cons_self _ _)
    rw [hv, List.mem_filter] at hpmem hqmem
    have hwp : win3 C p = kv.1 := of_decide_eq_true hpmem.2
    have hwq : win3 C q = kv.1 := of_decide_eq_true hqmem.2
    have hks : kv.1 = s := by
      rw [← hwp]
      exact hnorep q (List.mem_range.mp hqmem.1) p hpq (by rw [hwp, hwq])
    rcases kv with ⟨k1, k2⟩
    simp only at hks hv
    rw [hks] at hv ⊢
    rw [hv]
    rfl
  have hrep : repeatedSeqs C = [(s, posOf C s)] := by
    rw [repeatedSeqs, buildSequences_eq]
    apply filter_eq_single _ _ _ hBnodup (hkv0eq ▸ hkv0B)
    · exact decide_eq_true (by simpa using hocc2)
    · intro kv hkv hq
      exact htwo kv hkv (of_decide_eq_true hq)
  have hds : distancesOf C = pairDistances (posOf C s) := by
    rw [distancesOf, hrep]
    simp [List.flatMap]
  have hposPW : (posOf C s).Pairwise (· < ·) :=
    (List.pairwise_lt_range _).sublist (List.filter_sublist _)
  have hdvd : ∀ d ∈ distancesOf C, P ∣ d := by
    intro d hd
    rw [hds] at hd
    obtain ⟨p, q, hp, hq, hpq, rfl⟩ := pairDistances_mem _ hposPW d hd
    exact Nat.dvd_sub' (hoccP q hq) (hoccP p hp)
  obtain ⟨d1, dtl, hd1⟩ : ∃ d1 dtl, distancesOf C = d1 :: dtl := by
    rw [hds]
    obtain ⟨p, q, t, hps⟩ : ∃ p q t, posOf C s = p :: q :: t := by
      cases h1 : posOf C s with
      | nil => rw [h1] at hocc2; simp at hocc2
      | cons p rest =>
        cases h2 : rest with
        | nil => rw [h1, h2] at hocc2; simp at hocc2
        | cons q t => exact ⟨p, q, t, rfl⟩
    rw [hps]
    exact ⟨q - p, _, rfl⟩
  have hknd := keys_factorVotes_nodup M (distancesOf C)
  have hPd1 : P ∣ d1 := hdvd d1 (by rw [hd1]; exact List.mem_cons_self _ _)
  have hPfs1 : P ∈ get_factors d1 M := by
    rw [mem_get_factors]
    exact ⟨hP2, hPM, Nat.mod_eq_zero_of_dvd hPd1⟩
  have hPkeys : P ∈ (factorVotes (distancesOf C) M).map Prod.fst := by
    rw [keys_factorVotes_mem]
    exact ⟨d1, by rw [hd1]; exact List.mem_cons_self _ _, hPfs1⟩
  have hPmax : countOf (factorVotes (distancesOf C) M) P = (distancesOf C).length := by
    rw [votes_eq_countP C M P hP2 hPM]
    apply List.countP_eq_length.mpr
    intro d hd
    exact decide_eq_true (hdvd d hd)
  have heP : (P, countOf (factorVotes (distancesOf C) M) P) ∈
      factorVotes (distancesOf C) M := mem_countOf P _ hPkeys
  have hePL : (P, countOf (factorVotes (distancesOf C) M) P) ∈
      sortDesc (factorVotes (distancesOf C) M) :=
    ((perm_sortDesc _).mem_iff).mpr heP
  by_contra hPnot
  have hePtake : (P, countOf (factorVotes (distancesOf C) M) P) ∉
      (sortDesc (factorVotes (distancesOf C) M)).take 3 := by
    intro h
    apply hPnot
    rw [kasiski_examination, most_common]
    exact List.mem_map_of_mem Prod.fst h
  have hePdrop : (P, countOf (factorVotes (distancesOf C) M) P) ∈
      (sortDesc (factorVotes (distancesOf C) M)).drop 3 := by
    rw [← List.take_append_drop 3 (sortDesc (factorVotes (distancesOf C) M))] at hePL
    rcases List.mem_append.mp hePL with h | h
    · exact absurd h hePtake
    · exact h
  have htklen : ((sortDesc (factorVotes (distancesOf C) M)).take 3).length = 3 := by
    rw [List.length_take]
    have hne : (sortDesc (factorVotes (distancesOf C) M)).drop 3 ≠ [] := by
      intro h
      rw [h] at hePdrop
      exact absurd hePdrop (List.not_mem_nil _)
    have hlen := List.length_pos.mpr hne
    rw [List.length_drop] at hlen
    omega
  have hpw2 : ((sortDesc (factorVotes (distancesOf C) M)).take 3 ++
      (sortDesc (factorVotes (distancesOf C) M)).drop 3).Pairwise
        (fun x y => y.2 < x.2 ∨
          (x.2 = y.2 ∧ [x, y].Sublist (factorVotes (distancesOf C) M))) := by
    rw [List.take_append_drop]
    exact (sortDesc_pairwise _).2
  have hcross := (List.pairwise_append.mp hpw2).2.2
  have hnd2 : ((sortDesc (factorVotes (distancesOf C) M)).map Prod.fst).Nodup :=
    (((perm_sortDesc _).map Prod.fst).nodup_iff).mpr hknd
  have hsplit : (sortDesc (factorVotes (distancesOf C) M)).map Prod.fst =
      ((sortDesc (factorVotes (distancesOf C) M)).take 3).map Prod.fst ++
        ((sortDesc (factorVotes (distancesOf C) M)).drop 3).map Prod.fst := by
    rw [← List.map_append, List.take_append_drop]
  rw [hsplit] at hnd2
  have hdisj := (List.nodup_append.mp hnd2).2.2
  have hmemfl : ∀ y ∈ (sortDesc (factorVotes (distancesOf C) M)).take 3,
      y.1 ∈ (List.range' 2 (M - 1)).filter
        (fun f => decide (f ≠ P) &&
          (distancesOf C).all (fun d => decide (f ∣ d))) := by
    intro y hy
    have hyV : y ∈ factorVotes (distancesOf C) M :=
      (perm_sortDesc _).subset ((List.take_sublist 3 _).subset hy)
    have hkey : y.1 ∈ (factorVotes (distancesOf C) M).map Prod.fst :=
      List.mem_map_of_mem Prod.fst hyV
    obtain ⟨d, hd, hdf⟩ := (keys_factorVotes_mem M (distancesOf C) y.1).mp hkey
    rw [mem_get_factors] at hdf
    have hyc : y.2 = (distancesOf C).countP (fun d => decide (y.1 ∣ d)) := by
      rw [entry_countOf _ hknd y hyV, votes_eq_countP C M y.1 hdf.1 hdf.2.1]
    rcases hcross y hy _ hePdrop with h | ⟨heq, hsub⟩
    · exfalso
      have hle : y.2 ≤ (distancesOf C).length := by
        rw [hyc]
        exact List.countP_le_length _
      have h2 : countOf (factorVotes (distancesOf C) M) P < y.2 := h
      rw [hPmax] at h2
      omega
    · have hall : ∀ d' ∈ distancesOf C, y.1 ∣ d' := by
        have hcnt : (distancesOf C).countP (fun d => decide (y.1 ∣ d)) =
            (distancesOf C).length := by
          rw [← hyc, heq, hPmax]
        intro d' hd'
        exact of_decide_eq_true (List.countP_eq_length.mp hcnt d' hd')
      have hyne : y.1 ≠ P := by
        intro hEq
        refine hdisj (List.mem_map_of_mem Prod.fst hy) ?_
        rw [hEq]
        exact List.mem_map_of_mem Prod.fst hePdrop
      rw [List.mem_filter]
      refine ⟨?_, ?_⟩
      · rw [List.mem_range']
        exact ⟨y.1 - 2, by omega, by omega⟩
      · rw [Bool.and_eq_true]
        refine ⟨decide_eq_true hyne, ?_⟩
        rw [List.all_eq_true]
        intro d' hd'
        exact decide_eq_true (hall d' hd')
  have hndtk : (((sortDesc (factorVotes (distancesOf C) M)).take 3).map
      Prod.fst).Nodup := (List.nodup_append.mp hnd2).1
  have hfin : 3 ≤ ((List.range' 2 (M - 1)).filter
      (fun f => decide (f ≠ P) &&
        (distancesOf C).all (fun d => decide (f ∣ d)))).length := by
    have hlen3 : (((sortDesc (factorVotes (distancesOf C) M)).take 3).map
        Prod.fst).length = 3 := by
      rw [List.length_map, htklen]
    calc 3 = (((sortDesc (factorVotes (distancesOf C) M)).take 3).map
          Prod.fst).length := hlen3.symm
      _ = (((sortDesc (factorVotes (distancesOf C) M)).take 3).map
          Prod.fst).toFinset.card := (List.toFinset_card_of_nodup hndtk).symm
      _ ≤ ((List.range' 2 (M - 1)).filter
          (fun f => decide (f ≠ P) &&
            (distancesOf C).all (fun d => decide (f ∣ d)))).toFinset.card := by
        apply Finset.card_le_card
        intro x hx
        rw [List.mem_toFinset] at hx ⊢
        obtain ⟨y, hy, rfl⟩ := List.mem_map.mp hx
        exact hmemfl y hy
      _ ≤ ((List.range' 2 (M - 1)).filter
          (fun f => decide (f ≠ P) &&
            (distancesOf C).all (fun d => decide (f ∣ d)))).length :=
        List.toFinset_card_le _
  omega

set_option maxRecDepth 20000 in
/-- C5 counterexample: in the text `abcdefghijklabc` the trigram `abc` occurs
exactly at offsets 0 and 12 — multiples of the period `P = 12 ≤ 15`, at least
twice, with no other repeated trigram — yet 12 is not among the returned
candidates: the single distance 12 gives one vote to each of 2, 3, 4, 6, 12
(the Counter adopts the set's iteration order, here `[2, 3, 4, 6, 12]` after
its resize), and `most_common(3)` keeps the first three tied keys
`[2, 3, 4]`. -/
theorem kasiski_period_cex :
    posOf ['a','b','c','d','e','f','g','h','i','j','k','l','a','b','c']
      ['a','b','c'] = [0, 12] ∧
    (∀ i ∈ posOf ['a','b','c','d','e','f','g','h','i','j','k','l','a','b','c']
      ['a','b','c'], 12 ∣ i) ∧
    (∀ j, j < (['a','b','c','d','e','f','g','h','i','j','k','l','a','b','c'] :
        List Char).length - 2 → ∀ i, i < j →
      win3 ['a','b','c','d','e','f','g','h','i','j','k','l','a','b','c'] i =
        win3 ['a','b','c','d','e','f','g','h','i','j','k','l','a','b','c'] j →
      win3 ['a','b','c','d','e','f','g','h','i','j','k','l','a','b','c'] i =
        ['a','b','c']) ∧
    kasiski_examination ['a','b','c','d','e','f','g','h','i','j','k','l','a','b','c']
      15 = [2, 3, 4] ∧
    12 ∉ kasiski_examination
      ['a','b','c','d','e','f','g','h','i','j','k','l','a','b','c'] 15 := by
  decide

theorem kasiski_period_amended_witness :
    5 ∈ kasiski_examination ['a','b','c','d','e','a','b','c'] 15 :=
  kasiski_period_amended ['a','b','c','d','e','a','b','c'] ['a','b','c'] 5 15
    (by decide) (by decide) (by decide) (by decide) (by decide) (by decide)

/-! ### C9: the crack orchestrator -/

theorem frequency_analysis_lt (coset : List Char) : frequency_analysis coset < 26 := by
  rcases faFold_mem coset (List.range 26) 0 (-1) with h | h
  · rw [frequency_analysis, h]
    omega
  · exact List.mem_range.mp h

theorem assembleKey_spec (cleaned : List Char) (kl : Nat) (hkl : 1 ≤ kl) :
    ∃ key, assembleKey cleaned kl = some key ∧ key.length = kl ∧
      ∀ c ∈ key, 97 ≤ c.toNat ∧ c.toNat ≤ 122 := by
  rw [assembleKey, get_cosets_eq cleaned kl hkl]
  refine ⟨_, rfl, ?_, ?_⟩
  · rw [List.length_map, List.length_map, List.length_range]
  · intro c hc
    rw [List.mem_map] at hc
    obtain ⟨cs, _, rfl⟩ := hc
    have hlt := frequency_analysis_lt cs
    rw [char_toNat_ofNat _ (by omega)]
    omega

theorem decrypt_isSome (ciphertext key : List Char) (hk : key ≠ []) :
    ∃ out, decrypt_vigenere ciphertext key = some out := by
  cases hmap : key.map pyLowerChar with
  | nil =>
    rw [List.map_eq_nil_iff] at hmap
    exact absurd hmap hk
  | cons k0 ks =>
    rw [decrypt_vigenere, hmap]
    exact goDecrypt_cons_isSome k0 ks ciphertext 0

theorem tryLengths_spec (ciphertext cleaned : List Char)
    (oracle : List Char → List Char → Bool) :
    ∀ ls : List Nat, (∀ kl ∈ ls, 1 ≤ kl) →
      ∃ res tr, tryLengths ciphertext cleaned oracle ls = some (res, tr) ∧
        (res = none →
          tr.map (fun q => q.1.length) = ls ∧ ∀ q ∈ tr, oracle q.1 q.2 = false) ∧
        (∀ q, res = some q → oracle q.1 q.2 = true) := by
  intro ls
  induction ls with
  | nil =>
    intro _
    exact ⟨none, [], rfl, fun _ => ⟨rfl, by simp⟩, fun q hq => Option.noConfusion hq⟩
  | cons kl ls ih =>
    intro hall
    obtain ⟨key, hk, hklen, _⟩ :=
      assembleKey_spec cleaned kl (hall kl (List.mem_cons_self kl ls))
    have hkne : key ≠ [] := by
      intro h
      rw [h] at hklen
      have := hall kl (List.mem_cons_self kl ls)
      simp at hklen
      omega
    obtain ⟨out, hout⟩ := decrypt_isSome ciphertext key hkne
    obtain ⟨res, tr, hrec, hnone, hsome⟩ :=
      ih fun x hx => hall x (List.mem_cons_of_mem kl hx)
    have hstep : tryLengths ciphertext cleaned oracle (kl :: ls) =
        (assembleKey cleaned kl).bind (fun k =>
          (decrypt_vigenere ciphertext k).bind (fun d =>
            if oracle k d then some (some (k, d), [(k, d)])
            else (tryLengths ciphertext cleaned oracle ls).bind
              (fun rt => some (rt.1, (k, d) :: rt.2)))) := rfl
    rw [hstep, hk, Option.some_bind, hout, Option.some_bind]
    by_cases horacle : oracle key out = true
    · rw [if_pos horacle]
      refine ⟨some (key, out), [(key, out)], rfl, ?_, ?_⟩
      · intro h
        exact Option.noConfusion h
      · intro q hq
        rw [Option.some.injEq] at hq
        rw [← hq]
        exact horacle
    · rw [if_neg horacle, hrec, Option.some_bind]
      refine ⟨res, (key, out) :: tr, rfl, ?_, hsome⟩
      intro h
      obtain ⟨htr, hrej⟩ := hnone h
      refine ⟨?_, ?_⟩
      · rw [List.map_cons, htr]
        simp only [hklen]
      · intro q hq
        rcases List.mem_cons.mp hq with rfl | hq'
        · exact Bool.eq_false_iff.mpr horacle
        · exact hrej q hq'

/-- C9: for every ciphertext and every confirmation oracle, `crack_vigenere`
terminates with a result; when the result is `NotFound` (`none`), the oracle
was queried exactly once for each ranked Kasiski candidate length and then
exactly once for each length `5..15` not among the candidates, in that order
(the manual lengths ascending), and every query was rejected; when a
`(key, decrypted)` pair is returned, the oracle accepted it; an oracle that
always rejects therefore yields `NotFound` after that exact query
sequence. -/
theorem crack_vigenere_spec (oracle : List Char → List Char → Bool)
    (ciphertext : List Char) :
    ∃ res tr, crack_vigenere oracle ciphertext = some (res, tr) ∧
      (res = none →
        tr.map (fun q => q.1.length) =
          kasiski_examination (clean_text ciphertext) ++
            (List.range' 5 11).filter
              (fun kl => decide (kl ∉ kasiski_examination (clean_text ciphertext))) ∧
        ∀ q ∈ tr, oracle q.1 q.2 = false) ∧
      (∀ q, res = some q → oracle q.1 q.2 = true) ∧
      ((∀ k d, oracle k d = false) → res = none) := by
  have hranked : ∀ kl ∈ kasiski_examination (clean_text ciphertext), 1 ≤ kl := by
    intro kl hkl
    have := (kasiski_bounds (clean_text ciphertext) 15 kl hkl).1
    omega
  have hmanual : ∀ kl ∈ (List.range' 5 11).filter
      (fun kl => decide (kl ∉ kasiski_examination (clean_text ciphertext))), 1 ≤ kl := by
    intro kl hkl
    obtain ⟨i, hi, rfl⟩ := List.mem_range'.mp (List.mem_filter.mp hkl).1
    omega
  obtain ⟨res1, tr1, hrec1, hnone1, hsome1⟩ :=
    tryLengths_spec ciphertext (clean_text ciphertext) oracle
      (kasiski_examination (clean_text ciphertext)) hranked
  have hstep : crack_vigenere oracle ciphertext =
      (tryLengths ciphertext (clean_text ciphertext) oracle
        (kasiski_examination (clean_text ciphertext))).bind (fun rt1 =>
          match rt1.1 with
          | some r => some (some r, rt1.2)
          | none =>
            (tryLengths ciphertext (clean_text ciphertext) oracle
              ((List.range' 5 11).filter
                (fun kl => decide (kl ∉ kasiski_examination (clean_text ciphertext))))).bind
              (fun rt2 => some (rt2.1, rt1.2 ++ rt2.2))) := rfl
  rw [hstep, hrec1, Option.some_bind]
  cases res1 with
  | some r =>
    refine ⟨some r, tr1, rfl, fun h => Option.noConfusion h, ?_, ?_⟩
    · intro q hq
      rw [Option.some.injEq] at hq
      exact hq ▸ hsome1 r rfl
    · intro hrej
      exact absurd (hsome1 r rfl) (by simp [hrej])
  | none =>
    obtain ⟨res2, tr2, hrec2, hnone2, hsome2⟩ :=
      tryLengths_spec ciphertext (clean_text ciphertext) oracle
        ((List.range' 5 11).filter
          (fun kl => decide (kl ∉ kasiski_examination (clean_text ciphertext)))) hmanual
    rw [hrec2, Option.some_bind]
    cases res2 with
    | some r =>
      refine ⟨some r, tr1 ++ tr2, rfl, fun h => Option.noConfusion h, ?_, ?_⟩
      · intro q hq
        rw [Option.some.injEq] at hq
        exact hq ▸ hsome2 r rfl
      · intro hrej
        exact absurd (hsome2 r rfl) (by simp [hrej])
    | none =>
      refine ⟨none, tr1 ++ tr2, rfl, ?_, fun q hq => Option.noConfusion hq, fun _ => rfl⟩
      intro _
      obtain ⟨htr1, hrej1⟩ := hnone1 rfl
      obtain ⟨htr2, hrej2⟩ := hnone2 rfl
      refine ⟨?_, ?_⟩
      · rw [List.map_append, htr1, htr2]
      · intro q hq
        rcases List.mem_append.mp hq with hq | hq
        · exact hrej1 q hq
        · exact hrej2 q hq
